import Mathlib

/-!
# Text analysis server (`odev.c`): a verification development

A shallow embedding of the word-resolution core of `odev.c` and proofs of
its specified properties.

Modelling conventions

* A C string is the list of its characters before the terminating NUL
  (`CString := List Char`); indexing one position past the end yields NUL, as
  in C.
* `int` values are natural numbers: every integer the embedded code computes
  is a length, an index or an edit distance, all far below `INT_MAX` for the
  buffers of the program (`char[30]`).
* An array is the list of its slots; loops over indices are folds over
  `List.range` / `List.range'`. The dictionary array is read with `array_read`
  and written with `array_write`; the store is its slots below the word count
  (`store_words`).
* The dictionary file is the list of its lines; what the client sends in reply
  to a prompt and whether `fopen` succeeds are inputs of `process_word`.
* A text received from the client is the C string the receiving buffer holds
  (`input`, `response`), and the messages sent are held by their content, not as
  the bytes of `output`. The buffer `corrected_sentence`, which the program fills
  with `strcat`, is held with its size: a write past its end gives `none`.
* The word threads of a connection run their critical sections one after the
  other, in an order that is an input of `handle_connection`; whether
  `pthread_create` succeeds for a word is an input too, and a thread that was not
  created does not run.
-/

namespace TextAnalysis

/-! ## Constants and data types (lines 11-37) -/

/-- A NUL-terminated C string, held as the characters before the NUL. -/
abbrev CString := List Char

/-- The macro `INPUT_CHARACTER_LIMIT`. -/
def INPUT_CHARACTER_LIMIT : Nat := 30

/-- The macro `LEVENSHTEIN_LIST_LIMIT`. -/
def LEVENSHTEIN_LIST_LIMIT : Nat := 5

/-- The constant `INT_MAX` of `limits.h` for a 32-bit `int`. -/
def INT_MAX : Nat := 2147483647

/-- The capacity of the dictionary array, `char dictionary[2500][...]`. -/
def DICTIONARY_CAPACITY : Nat := 2500

/-- The struct `WordDistance`. -/
structure WordDistance where
  word : CString
  distance : Nat
deriving DecidableEq, Repr

/-- The terminating NUL character. -/
def NUL : Char := Char.ofNat 0

/-- Indexing a C string: `s[i]`, which is NUL at `i = strlen s`. -/
def charAt (s : CString) (i : Nat) : Char := s.getD i NUL

/-! ## `levenshtein_distance` (lines 40-57) -/

/-- The assignment `matrix[i][j] = v`. -/
def matrix_set (matrix : Nat → Nat → Nat) (i j v : Nat) : Nat → Nat → Nat :=
  fun i' j' => if i' = i ∧ j' = j then v else matrix i' j'

/-- The body of the inner loop, lines 49-53. -/
def levenshtein_cell (word1 word2 : CString) (i : Nat) (matrix : Nat → Nat → Nat) (j : Nat) :
    Nat → Nat → Nat :=
  let cost := if charAt word1 (i - 1) = charAt word2 (j - 1) then 0 else 1
  matrix_set matrix i j
    (min (min (matrix (i - 1) j + 1) (matrix i (j - 1) + 1)) (matrix (i - 1) (j - 1) + cost))

/-- The body of the outer loop, lines 48-54: `for (j = 1; j <= len2; j++)`. -/
def levenshtein_row (word1 word2 : CString) (matrix : Nat → Nat → Nat) (i : Nat) :
    Nat → Nat → Nat :=
  (List.range' 1 word2.length).foldl (levenshtein_cell word1 word2 i) matrix

/-- The table of `levenshtein_distance` after all its loops (lines 44-55). -/
def levenshtein_matrix (word1 word2 : CString) : Nat → Nat → Nat :=
  let len1 := word1.length
  let len2 := word2.length
  let matrix0 : Nat → Nat → Nat := fun _ _ => 0
  let matrix1 := (List.range (len1 + 1)).foldl (fun m i => matrix_set m i 0 i) matrix0
  let matrix2 := (List.range (len2 + 1)).foldl (fun m j => matrix_set m 0 j j) matrix1
  (List.range' 1 len1).foldl (levenshtein_row word1 word2) matrix2

/-- The function `levenshtein_distance`: `return matrix[len1][len2]`. -/
def levenshtein_distance (word1 word2 : CString) : Nat :=
  levenshtein_matrix word1 word2 word1.length word2.length

/-! ## Character classes of `ctype.h` in the C locale -/

/-- The function `tolower` of `ctype.h`. -/
def tolower (c : Char) : Char :=
  if 65 ≤ c.toNat ∧ c.toNat ≤ 90 then Char.ofNat (c.toNat + 32) else c

/-- The function `isdigit` of `ctype.h`. -/
def isdigit (c : Char) : Bool := decide (48 ≤ c.toNat ∧ c.toNat ≤ 57)

/-- The function `isalpha` of `ctype.h`. -/
def isalpha (c : Char) : Bool :=
  decide ((65 ≤ c.toNat ∧ c.toNat ≤ 90) ∨ (97 ≤ c.toNat ∧ c.toNat ≤ 122))

/-- The function `isspace` of `ctype.h`: space, `\t`, `\n`, `\v`, `\f`, `\r`. -/
def isspace (c : Char) : Bool := decide (c.toNat = 32 ∨ (9 ≤ c.toNat ∧ c.toNat ≤ 13))

/-- The function `strcmp` of `string.h`; only the sign of its result is specified, and
the embedding returns `-1`, `0` or `1`. Characters compare as unsigned bytes. -/
def strcmp : CString → CString → Int
  | [], [] => 0
  | [], _ :: _ => -1
  | _ :: _, [] => 1
  | c :: s, d :: t => if c = d then strcmp s t else if c.toNat < d.toNat then -1 else 1

/-- The function `atoi` of `stdlib.h`: leading white space, an optional sign, then the
longest run of decimal digits. -/
def atoi (s : CString) : Int :=
  let s1 := s.dropWhile isspace
  let negative := s1.head? = some (Char.ofNat 45)
  let s2 := if s1.head? = some (Char.ofNat 45) ∨ s1.head? = some (Char.ofNat 43) then s1.tail else s1
  let value : Nat := (s2.takeWhile isdigit).foldl (fun acc c => acc * 10 + (c.toNat - 48)) 0
  if negative then - (value : Int) else (value : Int)

/-! ## `to_lowercase` (lines 60-64) -/

/-- The function `to_lowercase`: every character replaced by its `tolower`. -/
def to_lowercase (str : CString) : CString := str.map tolower

/-! ## The dictionary array -/

/-- The assignment `strcpy(array[i], v)` on an array of strings held as the list of its
leading slots; a slot past the end of the list reads as the empty string. -/
def array_write (array : List CString) (i : Nat) (v : CString) : List CString :=
  if i < array.length then array.set i v
  else array ++ List.replicate (i - array.length) [] ++ [v]

/-- The read `array[i]` of a slot of an array of strings. -/
def array_read (array : List CString) (i : Nat) : CString := array.getD i []

/-- The words of the store: slots `0 .. word_count - 1` of the dictionary array. -/
def store_words (dictionary : List CString) (word_count : Nat) : List CString :=
  (List.range word_count).map (array_read dictionary)

/-! ## `add_to_dictionary` (lines 92-125) -/

/-- The body of the inner sorting loop, lines 105-110. -/
def sort_swap (i : Nat) (dictionary : List CString) (j : Nat) : List CString :=
  if strcmp (array_read dictionary i) (array_read dictionary j) > 0 then
    let temp := array_read dictionary i
    let dictionary1 := array_write dictionary i (array_read dictionary j)
    array_write dictionary1 j temp
  else dictionary

/-- The inner sorting loop, line 104: `for (j = i + 1; j < word_count; j++)`. -/
def sort_pass (word_count : Nat) (dictionary : List CString) (i : Nat) : List CString :=
  (List.range' (i + 1) (word_count - (i + 1))).foldl (sort_swap i) dictionary

/-- The sorting loops, lines 103-112: `for (i = 0; i < word_count - 1; i++)`. -/
def sort_dictionary (dictionary : List CString) (word_count : Nat) : List CString :=
  (List.range (word_count - 1)).foldl (sort_pass word_count) dictionary

/-- The memory `add_to_dictionary` works on: the dictionary array, the counter its
`word_count` argument points to, and the lines of the dictionary file. -/
structure DictionaryState where
  dictionary : List CString
  word_count : Nat
  file : List CString
deriving DecidableEq, Repr

/-- The function `add_to_dictionary`. `fopen_ok` tells whether opening the dictionary
file for writing succeeds. -/
def add_to_dictionary (word : CString) (s : DictionaryState) (fopen_ok : Bool) :
    DictionaryState :=
  if s.word_count ≥ DICTIONARY_CAPACITY then s
  else
    let dictionary1 := array_write s.dictionary s.word_count word
    let word_count1 := s.word_count + 1
    let dictionary2 := sort_dictionary dictionary1 word_count1
    if fopen_ok then
      { dictionary := dictionary2, word_count := word_count1,
        file := store_words dictionary2 word_count1 }
    else
      { dictionary := dictionary2, word_count := word_count1, file := s.file }

/-! ## `find_closest_words` (lines 128-155) -/

/-- The initial content of every slot of `closest` (lines 130-131). -/
def SENTINEL : WordDistance := { word := [], distance := INT_MAX }

/-- The read `closest[j]`. -/
def closest_read (closest : List WordDistance) (j : Nat) : WordDistance :=
  closest.getD j SENTINEL

/-- The shifting loop, lines 146-148: `for (k = LIMIT - 1; k > j; k--)`. -/
def shift_right (closest : List WordDistance) (j : Nat) : List WordDistance :=
  ((List.range' (j + 1) (LEVENSHTEIN_LIST_LIMIT - 1 - j)).reverse).foldl
    (fun c k => c.set k (closest_read c (k - 1))) closest

/-- The insertion loop, lines 144-153: the first slot `j` with
`distance < closest[j].distance` receives the candidate, after the slots from `j` on
moved one place to the right. -/
def insert_closest (closest : List WordDistance) (word : CString) (distance : Nat) :
    List WordDistance :=
  match (List.range LEVENSHTEIN_LIST_LIMIT).find?
      (fun j => decide (distance < (closest_read closest j).distance)) with
  | some j => (shift_right closest j).set j { word := word, distance := distance }
  | none => closest

/-- The distance `find_closest_words` gives a dictionary word, lines 135-142. -/
def word_distance (input_word entry : CString) : Nat :=
  if strcmp input_word entry = 0 then 0 else levenshtein_distance input_word entry

/-- The function `find_closest_words`; the result is the array `closest`. -/
def find_closest_words (input_word : CString) (dictionary : List CString) (word_count : Nat) :
    List WordDistance :=
  (List.range word_count).foldl
    (fun closest i =>
      insert_closest closest (array_read dictionary i)
        (word_distance input_word (array_read dictionary i)))
    (List.replicate LEVENSHTEIN_LIST_LIMIT SENTINEL)

/-! ## `is_in_dictionary` (lines 159-166) -/

/-- The function `is_in_dictionary`. -/
def is_in_dictionary (word : CString) (dictionary : List CString) (word_count : Nat) : Bool :=
  (List.range word_count).any (fun i => decide (strcmp word (array_read dictionary i) = 0))

/-! ## `process_word` (lines 176-241) -/

/-- The struct `WordThreadData`, without its two handles: the pointer `dictionary` (the
array it points to is passed along) and `client_socket`. -/
structure WordThreadData where
  word : CString
  result : CString
  word_count : Nat
  index : Nat
deriving DecidableEq, Repr

/-- What `process_word` sends to the client, by content. -/
inductive Message where
  | already_in_dictionary (word : CString)
  | not_present (word : CString)
  | closest_suggestions (closest : List WordDistance)
  | prompt
deriving DecidableEq, Repr

/-- The outcome of one run of `process_word`: the thread data, the dictionary array the
data points to, the dictionary file, the messages sent and the number of replies
read from the socket. -/
structure ProcessResult where
  data : WordThreadData
  dictionary : List CString
  file : List CString
  sent : List Message
  replies_read : Nat
deriving DecidableEq, Repr

/-- Line 222, `response[strcspn(response, "\n")] = 0`: the reply up to its first newline. -/
def strip_newline (response : CString) : CString :=
  response.takeWhile (fun c => c ≠ Char.ofNat 10)

/-- The function `process_word`, run under `client_mutex`. `received` is what `recv`
puts in `response` when the function reads a reply. -/
def process_word (data : WordThreadData) (dictionary : List CString) (file : List CString)
    (received : CString) (fopen_ok : Bool) : ProcessResult :=
  let word := to_lowercase data.word
  if is_in_dictionary word dictionary data.word_count then
    let closest := find_closest_words word dictionary data.word_count
    { data := { data with word := word, result := word },
      dictionary := dictionary, file := file,
      sent := [Message.already_in_dictionary word, Message.closest_suggestions closest],
      replies_read := 0 }
  else
    let closest := find_closest_words word dictionary data.word_count
    let sent := [Message.not_present word, Message.closest_suggestions closest, Message.prompt]
    let response := strip_newline received
    if isdigit (charAt response 0) then
      let choice := atoi response
      if choice > 0 ∧ choice ≤ LEVENSHTEIN_LIST_LIMIT then
        { data := { data with word := word,
                              result := (closest_read closest (choice - 1).toNat).word },
          dictionary := dictionary, file := file, sent := sent, replies_read := 1 }
      else
        { data := { data with word := word, result := word },
          dictionary := dictionary, file := file, sent := sent, replies_read := 1 }
    else if tolower (charAt response 0) = Char.ofNat 121 then
      let s := add_to_dictionary word
        { dictionary := dictionary, word_count := data.word_count, file := file } fopen_ok
      { data := { data with word := word, result := word, word_count := s.word_count },
        dictionary := s.dictionary, file := s.file, sent := sent, replies_read := 1 }
    else
      { data := { data with word := word, result := (closest_read closest 0).word },
        dictionary := dictionary, file := file, sent := sent, replies_read := 1 }

/-! ## `handle_connection`: the thread data (lines 282-287) -/

/-- The initialisation of `thread_data[i]` in `handle_connection`: the thread gets the
value `*word_count` has at that moment. -/
def new_thread_data (word : CString) (i : Nat) (word_count : Nat) : WordThreadData :=
  { word := word, result := [], word_count := word_count, index := i }

/-! ## Specification-level notions -/

/-- One single-character edit of a string: an insertion, a deletion or a substitution
of one character at any position. -/
inductive EditStep : CString → CString → Prop where
  | insertion (l r : CString) (c : Char) : EditStep (l ++ r) (l ++ c :: r)
  | deletion (l r : CString) (c : Char) : EditStep (l ++ c :: r) (l ++ r)
  | substitution (l r : CString) (c d : Char) : EditStep (l ++ c :: r) (l ++ d :: r)

/-- `EditChain n a b`: a sequence of `n` single-character edits transforms `a` into `b`. -/
inductive EditChain : Nat → CString → CString → Prop where
  | done (a : CString) : EditChain 0 a a
  | next {n : Nat} {a s t : CString} : EditChain n a s → EditStep s t → EditChain (n + 1) a t

/-- The textbook recurrence of the edit distance on the first characters of both
strings; an auxiliary of the proofs. -/
def editRec : CString → CString → Nat
  | [], b => b.length
  | x :: a, [] => (x :: a).length
  | x :: a, y :: b =>
    min (min (editRec a (y :: b) + 1) (editRec (x :: a) b + 1))
      (editRec a b + if x = y then 0 else 1)
termination_by a b => a.length + b.length

/-- The value the table has to hold at `[i][j]`: the recurrence on the first `i`
characters of `word1` and the first `j` of `word2`, last characters first. -/
def tableSpec (word1 word2 : CString) (i j : Nat) : Nat :=
  editRec (word1.take i).reverse (word2.take j).reverse

/-- The insertion of a candidate into a ranking, behind the entries whose distance is
not greater; an auxiliary of the proofs. -/
def insert_last (c : WordDistance) : List WordDistance → List WordDistance
  | [] => [c]
  | x :: xs => if c.distance < x.distance then c :: x :: xs else x :: insert_last c xs

/-- The insertion `insert_last` in a ranking of fixed length, whose last entry drops
out; an auxiliary of the proofs. -/
def insert_bounded (c : WordDistance) : List WordDistance → List WordDistance
  | [] => []
  | x :: xs =>
    if c.distance < x.distance then c :: (x :: xs).dropLast else x :: insert_bounded c xs

/-- The candidates of a store for an input word: every store word with its distance to
the input word, in store order. -/
def candidates (input_word : CString) (store : List CString) : List WordDistance :=
  store.map (fun w => { word := w, distance := levenshtein_distance input_word w })

/-- The order of the ranking: by ascending distance. -/
def distance_le (a b : WordDistance) : Prop := a.distance ≤ b.distance

instance : DecidableRel distance_le := fun a b => Nat.decLe a.distance b.distance

/-- The ranked suggestions as specified: the first five candidates in ascending order of
distance, candidates of equal distance in store order (insertion sort is stable),
the unused slots filled with the sentinel. -/
def ranked_suggestions (input_word : CString) (store : List CString) : List WordDistance :=
  ((candidates input_word store).insertionSort distance_le ++
    List.replicate LEVENSHTEIN_LIST_LIMIT SENTINEL).take LEVENSHTEIN_LIST_LIMIT

/-- The invariant of the outer sorting loop: each of the slots before `i` holds a word
that is not greater than any word in a later slot below `n`. -/
def sorted_before (dictionary : List CString) (n i : Nat) : Prop :=
  ∀ k l, k < i → k < l → l < n →
    strcmp (array_read dictionary k) (array_read dictionary l) ≤ 0

/-- The invariant of the inner sorting loop: slot `i` holds a word that is not greater
than any word in the slots after it and before `j`. -/
def pivot_least (dictionary : List CString) (i j : Nat) : Prop :=
  ∀ l, i < l → l < j → strcmp (array_read dictionary i) (array_read dictionary l) ≤ 0

/-! ## Concrete inputs of the worked examples -/

/-- A store of three words, not sorted: `apple`, `box`, `ax`. -/
def example_dictionary : List CString := ["apple".toList, "box".toList, "ax".toList]

/-- A sorted store of two words: `apple`, `box`. -/
def small_dictionary : List CString := ["apple".toList, "box".toList]

/-- A store filled to its capacity of 2500 words. -/
def full_dictionary : List CString := List.replicate 2500 "a".toList


/-! ## `trim_whitespace` (lines 67-74) and `contains_invalid_characters` (lines 168-175) -/

/-- The function `trim_whitespace`, as the change it makes to the buffer it is given. The
pointer `str` that skips the leading white space (line 69) is the function's own copy,
so the leading white space stays in the buffer; a buffer of white space only is left
as it is (line 70); otherwise the NUL is put behind the last character that is not
white space (lines 71-73). -/
def trim_whitespace (str : CString) : CString :=
  if str.dropWhile isspace = [] then str else str.rdropWhile isspace

/-- The function `contains_invalid_characters`: some character is neither alphabetic nor
white space. -/
def contains_invalid_characters (input : CString) : Bool :=
  input.any (fun c => !isalpha c && !isspace c)

/-! ## `handle_connection` (lines 244-321) -/

/-- The loop of lines 274-280 over the tokens `strtok` cuts with the delimiter `" "`:
`token` holds the characters of the token being read. -/
def strtok_loop : CString → CString → List CString
  | [], token => if token = [] then [] else [token]
  | c :: rest, token =>
    if c = Char.ofNat 32 then
      if token = [] then strtok_loop rest [] else token :: strtok_loop rest []
    else strtok_loop rest (token ++ [c])

/-- The array `words` of `handle_connection` for the text received from the client: the
tokens of the trimmed, lowercased input (lines 253, 268-280). -/
def input_words (received : CString) : List CString :=
  strtok_loop (to_lowercase (trim_whitespace received)) []

/-- The loop of lines 282-294 as far as it fills `thread_data`, from index `i` on: every
slot is filled before `pthread_create` is called for it, whether the call succeeds or
not, and `result` is left as it is (held as the empty string). -/
def init_thread_data (word_count : Nat) : Nat → List CString → List WordThreadData
  | _, [] => []
  | i, w :: ws => new_thread_data w i word_count :: init_thread_data word_count (i + 1) ws

/-- What the word threads of one connection share and leave behind: the array
`thread_data`, the dictionary array of the connection, the dictionary file, the
messages sent to the client and the number of replies read so far. -/
structure ThreadsState where
  thread_data : List WordThreadData
  dictionary : List CString
  file : List CString
  sent : List Message
  replies_read : Nat
deriving DecidableEq, Repr

/-- The critical section of thread `i`: `process_word` on `thread_data[i]`, between
`pthread_mutex_lock` and `pthread_mutex_unlock`. `replies k` is what the client sends
in answer to prompt number `k` of the connection. -/
def run_thread (replies : Nat → CString) (fopen_ok : Bool) (st : ThreadsState) (i : Nat) :
    ThreadsState :=
  match st.thread_data[i]? with
  | none => st
  | some data =>
    let r := process_word data st.dictionary st.file (replies st.replies_read) fopen_ok
    { thread_data := st.thread_data.set i r.data,
      dictionary := r.dictionary,
      file := r.file,
      sent := st.sent ++ r.sent,
      replies_read := st.replies_read + r.replies_read }

/-- The word threads of one connection, their critical sections taken in the order
`order` in which the threads get `client_mutex`. -/
def run_threads (replies : Nat → CString) (fopen_ok : Bool) (order : List Nat)
    (st : ThreadsState) : ThreadsState :=
  order.foldl (run_thread replies fopen_ok) st

/-- The value of `thread_count` after the loop of lines 282-294: the number of words for
which `pthread_create` succeeded. `created i` tells whether the call for word `i`
succeeds. -/
def count_threads (created : Nat → Bool) (word_count_in_input : Nat) : Nat :=
  ((List.range word_count_in_input).filter created).length

/-- The call `strcat(corrected_sentence, s)` on the buffer
`char corrected_sentence[INPUT_CHARACTER_LIMIT]` of line 300. `none` is a buffer that
was written past its end, or that received bytes no thread wrote: the behaviour of the
program is undefined from there on. The text, the appended string and the NUL have to
fit in the `INPUT_CHARACTER_LIMIT` bytes. -/
def buffer_strcat (buffer : Option CString) (s : CString) : Option CString :=
  match buffer with
  | none => none
  | some text =>
    if text.length + s.length < INPUT_CHARACTER_LIMIT then some (text ++ s) else none

/-- The scan of lines 302-303 for position `i`: the first `j < thread_count` with
`thread_data[j].index == i`. -/
def find_thread (thread_data : List WordThreadData) (thread_count i : Nat) : Option Nat :=
  (List.range thread_count).find? (fun j =>
    match thread_data[j]? with
    | some data => decide (data.index = i)
    | none => false)

/-- The body of the loop of lines 301-309 for position `i`: the result of the thread data
the scan finds, and a space, are appended to `corrected_sentence` with `strcat`. The
`result` of a slot whose thread was not created was never written, and appending it
leaves the buffer undefined. -/
def append_result (thread_data : List WordThreadData) (thread_count : Nat)
    (created : Nat → Bool) (sentence : Option CString) (i : Nat) : Option CString :=
  match find_thread thread_data thread_count i with
  | none => sentence
  | some j =>
    match thread_data[j]? with
    | none => none
    | some data =>
      if created j then buffer_strcat (buffer_strcat sentence data.result) [Char.ofNat 32]
      else none

/-- Lines 300-313: the corrected sentence, put together by position in the buffer
`corrected_sentence`, without its last space; `none` when the buffer was left
undefined. -/
def assemble_sentence (thread_data : List WordThreadData)
    (word_count_in_input thread_count : Nat) (created : Nat → Bool) : Option CString :=
  match (List.range word_count_in_input).foldl
      (append_result thread_data thread_count created) (some []) with
  | none => none
  | some sentence =>
    if sentence.length > 0 ∧ charAt sentence (sentence.length - 1) = Char.ofNat 32 then
      some (sentence.take (sentence.length - 1))
    else some sentence

/-- The two validation errors of `handle_connection` (lines 256-267). -/
inductive ValidationError where
  | exceeds_limit
  | invalid_characters
deriving DecidableEq, Repr

/-- The outcome of `handle_connection`: the validation error if the input was rejected,
the input as echoed, the thread data after the joins, the dictionary array of the
connection, the dictionary file, the messages of the word threads, the number of
replies read and the corrected sentence (`none` when the buffer `corrected_sentence`
was left undefined; the empty string when the input was rejected and no sentence was
put together). -/
structure ConnectionResult where
  error : Option ValidationError
  original_input : CString
  thread_data : List WordThreadData
  dictionary : List CString
  file : List CString
  sent : List Message
  replies_read : Nat
  corrected_sentence : Option CString
deriving DecidableEq, Repr

/-- The function `handle_connection`. `received` is the text `recv` puts in `input`,
`word_count` the value of `*word_count`, which the function only reads, `created i`
whether `pthread_create` succeeds for word `i` (a thread that was not created never
runs), and `order` the order in which the threads take `client_mutex`. -/
def handle_connection (received : CString) (dictionary : List CString) (word_count : Nat)
    (file : List CString) (created : Nat → Bool) (order : List Nat) (replies : Nat → CString)
    (fopen_ok : Bool) : ConnectionResult :=
  let input := trim_whitespace received
  if input.length > INPUT_CHARACTER_LIMIT - 1 then
    { error := some ValidationError.exceeds_limit, original_input := input,
      thread_data := [], dictionary := dictionary, file := file, sent := [],
      replies_read := 0, corrected_sentence := some [] }
  else if contains_invalid_characters input then
    { error := some ValidationError.invalid_characters, original_input := input,
      thread_data := [], dictionary := dictionary, file := file, sent := [],
      replies_read := 0, corrected_sentence := some [] }
  else
    let input := to_lowercase input
    let words := strtok_loop input []
    let thread_count := count_threads created words.length
    let st := run_threads replies fopen_ok (order.filter created)
      { thread_data := init_thread_data word_count 0 words, dictionary := dictionary,
        file := file, sent := [], replies_read := 0 }
    { error := none, original_input := input, thread_data := st.thread_data,
      dictionary := st.dictionary, file := st.file, sent := st.sent,
      replies_read := st.replies_read,
      corrected_sentence :=
        assemble_sentence st.thread_data words.length thread_count created }

/-! ## `main` and `client_handler` (lines 325-391) -/

/-- The function `client_handler` for one accepted connection: `handle_connection` on the
copy `args->dictionary` that `main` made of its dictionary array with `memcpy`
(line 380), with `args->word_count` pointing to the word count of `main`. -/
def client_handler (server : DictionaryState) (received : CString) (created : Nat → Bool)
    (order : List Nat) (replies : Nat → CString) (fopen_ok : Bool) : ConnectionResult :=
  handle_connection received server.dictionary server.word_count server.file created order
    replies fopen_ok

/-- The dictionary array and word count of `main`, and the dictionary file, after a
connection was served: nothing writes to the array or the count of `main`. -/
def server_after (server : DictionaryState) (r : ConnectionResult) : DictionaryState :=
  { dictionary := server.dictionary, word_count := server.word_count, file := r.file }


/-- Words joined by exactly one space, with no space before the first or after the last
word. -/
def join_words : List CString → CString
  | [] => []
  | [w] => w
  | w :: w' :: ws => w ++ Char.ofNat 32 :: join_words (w' :: ws)

/-- Every word followed by a space: the sentence of lines 300-309 before its last space
is cut; an auxiliary of the proofs. -/
def concat_spaces : List CString → CString
  | [] => []
  | w :: ws => w ++ Char.ofNat 32 :: concat_spaces ws

/-- The state in which the word threads of an accepted connection start. -/
def threads_start (received : CString) (dictionary : List CString) (word_count : Nat)
    (file : List CString) : ThreadsState :=
  { thread_data := init_thread_data word_count 0 (input_words received),
    dictionary := dictionary, file := file, sent := [], replies_read := 0 }


/-- The invariant of the stored words: lowercase, not empty, at most 29 characters. -/
def valid_word (w : CString) : Prop :=
  to_lowercase w = w ∧ w ≠ [] ∧ w.length ≤ INPUT_CHARACTER_LIMIT - 1

instance : DecidablePred valid_word := fun w =>
  inferInstanceAs (Decidable (to_lowercase w = w ∧ w ≠ [] ∧ w.length ≤ INPUT_CHARACTER_LIMIT - 1))

/-- The server of the worked examples: `main` holds the store `apple`, `box`, and the
dictionary file has the same two lines. -/
def example_server : DictionaryState :=
  { dictionary := small_dictionary, word_count := 2, file := small_dictionary }

/-- A client that answers `y` to every prompt. -/
def yes_replies : Nat → CString := fun _ => "y\n".toList

/-- A client that answers `n` to every prompt. -/
def no_replies : Nat → CString := fun _ => "n\n".toList

/-- Every call of `pthread_create` succeeds. -/
def all_created : Nat → Bool := fun _ => true

/-- A sorted store of three words of nine letters. -/
def nine_dictionary : List CString :=
  ["aaaaaaaaa".toList, "bbbbbbbbb".toList, "ccccccccc".toList]

/-- A sorted store of two words: `box`, `zebra`. -/
def zebra_dictionary : List CString := ["box".toList, "zebra".toList]

end TextAnalysis

/-! # Theorems -/

namespace TextAnalysis

/-! ## Loops as folds -/

theorem foldl_range'_invariant {σ : Type} (P : Nat → σ → Prop) (f : σ → Nat → σ) :
    ∀ (n s : Nat) (init : σ), P s init →
      (∀ k st, s ≤ k → k < s + n → P k st → P (k + 1) (f st k)) →
      P (s + n) ((List.range' s n).foldl f init) := by
  intro n
  induction n with
  | zero => intro s init h0 _; simpa using h0
  | succ n ih =>
    intro s init h0 hstep
    rw [List.range'_succ, List.foldl_cons]
    have h1 : P (s + 1) (f init s) := hstep s init (le_refl _) (by omega) h0
    have := ih (s + 1) (f init s) h1 (fun k st hk hk2 hP => hstep k st (by omega) (by omega) hP)
    have e : s + 1 + n = s + (n + 1) := by omega
    rw [e] at this
    exact this

theorem foldl_range_invariant {σ : Type} (P : Nat → σ → Prop) (f : σ → Nat → σ)
    (n : Nat) (init : σ) (h0 : P 0 init)
    (hstep : ∀ k st, k < n → P k st → P (k + 1) (f st k)) :
    P n ((List.range n).foldl f init) := by
  rw [List.range_eq_range']
  have := foldl_range'_invariant P f n 0 init h0
    (fun k st _ hk hP => hstep k st (by omega) hP)
  simpa using this

/-! ## The table of `levenshtein_distance` -/

theorem editRec_nil_left (b : CString) : editRec [] b = b.length := by
  rw [editRec]

theorem editRec_nil_right (a : CString) : editRec a [] = a.length := by
  cases a with
  | nil => rw [editRec]
  | cons x a => rw [editRec]

theorem editRec_cons_cons (x y : Char) (a b : CString) :
    editRec (x :: a) (y :: b) =
      min (min (editRec a (y :: b) + 1) (editRec (x :: a) b + 1))
        (editRec a b + if x = y then 0 else 1) := by
  rw [editRec]

theorem reverse_take_succ (w : CString) (i : Nat) (h : i < w.length) :
    (w.take (i + 1)).reverse = charAt w i :: (w.take i).reverse := by
  rw [List.take_succ, List.reverse_append]
  simp [charAt, List.getD, List.getElem?_eq_getElem h]

theorem tableSpec_zero_left (word1 word2 : CString) (j : Nat) (hj : j ≤ word2.length) :
    tableSpec word1 word2 0 j = j := by
  simp [tableSpec, editRec_nil_left, hj]

theorem tableSpec_zero_right (word1 word2 : CString) (i : Nat) (hi : i ≤ word1.length) :
    tableSpec word1 word2 i 0 = i := by
  simp [tableSpec, editRec_nil_right, hi]

theorem tableSpec_succ (word1 word2 : CString) (i j : Nat)
    (hi : 1 ≤ i) (hi2 : i ≤ word1.length) (hj : 1 ≤ j) (hj2 : j ≤ word2.length) :
    tableSpec word1 word2 i j =
      min (min (tableSpec word1 word2 (i - 1) j + 1) (tableSpec word1 word2 i (j - 1) + 1))
        (tableSpec word1 word2 (i - 1) (j - 1) +
          if charAt word1 (i - 1) = charAt word2 (j - 1) then 0 else 1) := by
  obtain ⟨i, rfl⟩ : ∃ k, i = k + 1 := ⟨i - 1, by omega⟩
  obtain ⟨j, rfl⟩ : ∃ k, j = k + 1 := ⟨j - 1, by omega⟩
  simp only [Nat.add_sub_cancel]
  unfold tableSpec
  rw [reverse_take_succ word1 i (by omega), reverse_take_succ word2 j (by omega),
    editRec_cons_cons]

theorem matrix_set_same (m : Nat → Nat → Nat) (i j v : Nat) : matrix_set m i j v i j = v := by
  simp [matrix_set]

theorem matrix_set_other (m : Nat → Nat → Nat) (i j v i' j' : Nat) (h : ¬ (i' = i ∧ j' = j)) :
    matrix_set m i j v i' j' = m i' j' := by
  simp [matrix_set, h]

/-- The inner loop fills row `i` when the rows above it and column 0 are filled. -/
theorem levenshtein_row_spec (word1 word2 : CString) (m : Nat → Nat → Nat) (k : Nat)
    (hk : 1 ≤ k) (hk2 : k ≤ word1.length)
    (hm : ∀ i j, i ≤ word1.length → j ≤ word2.length → (i < k ∨ j = 0) →
      m i j = tableSpec word1 word2 i j) :
    ∀ i j, i ≤ word1.length → j ≤ word2.length → (i < k + 1 ∨ j = 0) →
      levenshtein_row word1 word2 m k i j = tableSpec word1 word2 i j := by
  have key := foldl_range'_invariant
    (fun c (m : Nat → Nat → Nat) => ∀ i j, i ≤ word1.length → j ≤ word2.length →
      (i < k ∨ j = 0 ∨ (i = k ∧ j < c)) → m i j = tableSpec word1 word2 i j)
    (levenshtein_cell word1 word2 k) word2.length 1 m
    (by
      intro i j hi hj h
      apply hm i j hi hj
      omega)
    (by
      intro c st hc hc2 hst i j hi hj h
      unfold levenshtein_cell
      by_cases hij : i = k ∧ j = c
      · obtain ⟨rfl, rfl⟩ := hij
        rw [matrix_set_same, tableSpec_succ word1 word2 i j hk hk2 hc (by omega),
          hst (i - 1) j (by omega) hj (by omega),
          hst i (j - 1) hi (by omega) (by omega),
          hst (i - 1) (j - 1) (by omega) (by omega) (by omega)]
      · rw [matrix_set_other _ _ _ _ _ _ hij]
        apply hst i j hi hj
        omega)
  intro i j hi hj h
  apply key i j hi hj
  omega

theorem levenshtein_init_column (n : Nat) (m0 : Nat → Nat → Nat) :
    ∀ i, i < n + 1 →
      ((List.range (n + 1)).foldl (fun m i => matrix_set m i 0 i) m0) i 0 = i := by
  have h := foldl_range_invariant
    (fun k (m : Nat → Nat → Nat) => ∀ i, i < k → m i 0 = i)
    (fun m i => matrix_set m i 0 i) (n + 1) m0
    (by intro i hi; omega)
    (by
      intro k st _ hst i hi
      beta_reduce
      by_cases hik : i = k
      · subst hik; rw [matrix_set_same]
      · rw [matrix_set_other _ _ _ _ _ _ (by simp [hik])]
        exact hst i (by omega))
  exact h

theorem levenshtein_init_row (n1 n2 : Nat) (m1 : Nat → Nat → Nat)
    (h1 : ∀ i, i < n1 + 1 → m1 i 0 = i) :
    (∀ i, i < n1 + 1 →
      ((List.range (n2 + 1)).foldl (fun m j => matrix_set m 0 j j) m1) i 0 = i) ∧
    ∀ j, j < n2 + 1 →
      ((List.range (n2 + 1)).foldl (fun m j => matrix_set m 0 j j) m1) 0 j = j := by
  have h := foldl_range_invariant
    (fun k (m : Nat → Nat → Nat) => (∀ i, i < n1 + 1 → m i 0 = i) ∧
      ∀ j, j < k → m 0 j = j)
    (fun m j => matrix_set m 0 j j) (n2 + 1) m1
    ⟨h1, by intro j hj; omega⟩
    (by
      intro k st _ hst
      beta_reduce
      refine ⟨?_, ?_⟩
      · intro i hi
        by_cases hik : i = 0 ∧ 0 = k
        · obtain ⟨rfl, rfl⟩ := hik; rw [matrix_set_same]
        · rw [matrix_set_other _ _ _ _ _ _ hik]
          exact hst.1 i hi
      · intro j hj
        by_cases hjk : j = k
        · subst hjk; rw [matrix_set_same]
        · rw [matrix_set_other _ _ _ _ _ _ (by simp [hjk])]
          exact hst.2 j (by omega))
  exact h

theorem levenshtein_rows_spec (word1 word2 : CString) (m2 : Nat → Nat → Nat)
    (hcol : ∀ i, i < word1.length + 1 → m2 i 0 = i)
    (hrow : ∀ j, j < word2.length + 1 → m2 0 j = j) :
    ∀ i j, i ≤ word1.length → j ≤ word2.length →
      ((List.range' 1 word1.length).foldl (levenshtein_row word1 word2) m2) i j =
        tableSpec word1 word2 i j := by
  have h3 := foldl_range'_invariant
    (fun k (m : Nat → Nat → Nat) => ∀ i j, i ≤ word1.length → j ≤ word2.length →
      (i < k ∨ j = 0) → m i j = tableSpec word1 word2 i j)
    (levenshtein_row word1 word2) word1.length 1 m2
    (by
      intro i j hi hj h
      rcases Nat.eq_zero_or_pos j with hj0 | hj0
      · subst hj0
        rw [hcol i (by omega), tableSpec_zero_right _ _ _ hi]
      · have hi0 : i = 0 := by omega
        subst hi0
        rw [hrow j (by omega), tableSpec_zero_left _ _ _ hj])
    (by
      intro k st hk hk2 hst
      exact levenshtein_row_spec word1 word2 st k hk (by omega) hst)
  intro i j hi hj
  exact h3 i j hi hj (by omega)

theorem levenshtein_matrix_spec (word1 word2 : CString) :
    ∀ i j, i ≤ word1.length → j ≤ word2.length →
      levenshtein_matrix word1 word2 i j = tableSpec word1 word2 i j := by
  have h2 := levenshtein_init_row word1.length word2.length _
    (levenshtein_init_column word1.length (fun _ _ => 0))
  intro i j hi hj
  unfold levenshtein_matrix
  exact levenshtein_rows_spec word1 word2 _ h2.1 h2.2 i j hi hj

/-- The result of `levenshtein_distance` is the recurrence on the reversed strings. -/
theorem levenshtein_distance_eq_editRec (word1 word2 : CString) :
    levenshtein_distance word1 word2 = editRec word1.reverse word2.reverse := by
  unfold levenshtein_distance
  rw [levenshtein_matrix_spec word1 word2 _ _ (le_refl _) (le_refl _)]
  simp [tableSpec]

/-! ## Chains of single-character edits -/

theorem editStep_cons (x : Char) {s t : CString} (h : EditStep s t) :
    EditStep (x :: s) (x :: t) := by
  cases h with
  | insertion l r c => exact EditStep.insertion (x :: l) r c
  | deletion l r c => exact EditStep.deletion (x :: l) r c
  | substitution l r c d => exact EditStep.substitution (x :: l) r c d

theorem editStep_reverse {s t : CString} (h : EditStep s t) :
    EditStep s.reverse t.reverse := by
  cases h with
  | insertion l r c =>
    have := EditStep.insertion r.reverse l.reverse c
    simpa using this
  | deletion l r c =>
    have := EditStep.deletion r.reverse l.reverse c
    simpa using this
  | substitution l r c d =>
    have := EditStep.substitution r.reverse l.reverse c d
    simpa using this

theorem editChain_cast {n m : Nat} {a b : CString} (h : EditChain n a b) (e : n = m) :
    EditChain m a b := e ▸ h

theorem editChain_cons (x : Char) {n : Nat} {a b : CString} (h : EditChain n a b) :
    EditChain n (x :: a) (x :: b) := by
  induction h with
  | done a => exact EditChain.done _
  | next _ hs ih => exact EditChain.next ih (editStep_cons x hs)

theorem editChain_reverse {n : Nat} {a b : CString} (h : EditChain n a b) :
    EditChain n a.reverse b.reverse := by
  induction h with
  | done a => exact EditChain.done _
  | next _ hs ih => exact EditChain.next ih (editStep_reverse hs)

theorem editChain_single {a b : CString} (h : EditStep a b) : EditChain 1 a b :=
  EditChain.next (EditChain.done a) h

theorem editChain_trans {n m : Nat} {a s b : CString} (h1 : EditChain n a s)
    (h2 : EditChain m s b) : EditChain (n + m) a b := by
  induction h2 with
  | done _ => exact h1
  | next _ hs ih => exact EditChain.next (ih h1) hs

theorem editChain_insert_head {n : Nat} {a b : CString} (h : EditChain n a b) (y : Char) :
    EditChain (n + 1) a (y :: b) :=
  EditChain.next h (EditStep.insertion [] b y)

theorem editChain_delete_head {n : Nat} {a b : CString} (x : Char) (h : EditChain n a b) :
    EditChain (n + 1) (x :: a) b :=
  editChain_cast (editChain_trans (editChain_single (EditStep.deletion [] a x)) h)
    (Nat.add_comm 1 n)

theorem editChain_substitute_head {n : Nat} {a b : CString} (x y : Char)
    (h : EditChain n a b) : EditChain (n + 1) (x :: a) (y :: b) :=
  editChain_cast
    (editChain_trans (editChain_single (EditStep.substitution [] a x y)) (editChain_cons y h))
    (Nat.add_comm 1 n)

theorem editChain_of_nil (b : CString) : EditChain b.length [] b := by
  induction b with
  | nil => exact EditChain.done _
  | cons y b ih => exact editChain_insert_head ih y

theorem editChain_to_nil (a : CString) : EditChain a.length a [] := by
  induction a with
  | nil => exact EditChain.done _
  | cons x a ih => exact editChain_delete_head x ih

/-- The recurrence is reached by a chain of edits. -/
theorem editRec_chain : ∀ a b : CString, EditChain (editRec a b) a b := by
  intro a
  induction a with
  | nil => intro b; rw [editRec_nil_left]; exact editChain_of_nil b
  | cons x a iha =>
    intro b
    induction b with
    | nil => rw [editRec_nil_right]; exact editChain_to_nil _
    | cons y b ihb =>
      rw [editRec_cons_cons]
      rcases min_choice (min (editRec a (y :: b) + 1) (editRec (x :: a) b + 1))
          (editRec a b + if x = y then 0 else 1) with h | h
      · rw [h]
        rcases min_choice (editRec a (y :: b) + 1) (editRec (x :: a) b + 1) with h' | h'
        · rw [h']; exact editChain_delete_head x (iha (y :: b))
        · rw [h']; exact editChain_insert_head ihb y
      · rw [h]
        by_cases hxy : x = y
        · subst hxy
          simpa using editChain_cons x (iha b)
        · simpa [hxy] using editChain_substitute_head x y (iha b)

/-! ## No chain of edits is shorter than the recurrence -/

theorem editRec_self (a : CString) : editRec a a = 0 := by
  induction a with
  | nil => rw [editRec_nil_left]; rfl
  | cons x a ih =>
    rw [editRec_cons_cons]
    simp [ih]

theorem editRec_cons_right_le (a r : CString) (c : Char) :
    editRec a (c :: r) ≤ editRec a r + 1 := by
  cases a with
  | nil => simp [editRec_nil_left]
  | cons x a =>
    rw [editRec_cons_cons]
    exact le_trans (min_le_left _ _) (min_le_right _ _)

theorem editRec_cons_left_le (a r : CString) (x : Char) :
    editRec (x :: a) r ≤ editRec a r + 1 := by
  cases r with
  | nil => simp [editRec_nil_right]
  | cons y r =>
    rw [editRec_cons_cons]
    exact le_trans (min_le_left _ _) (min_le_left _ _)

theorem editRec_cons_cons_le (a r : CString) (x y : Char) :
    editRec (x :: a) (y :: r) ≤ editRec a r + 1 := by
  rw [editRec_cons_cons]
  refine le_trans (min_le_right _ _) ?_
  split <;> omega

theorem editRec_le_cons_right (r : CString) (c : Char) :
    ∀ a : CString, editRec a r ≤ editRec a (c :: r) + 1 := by
  intro a
  induction a with
  | nil => simp only [editRec_nil_left, List.length_cons]; omega
  | cons x a ih =>
    have h1 := editRec_cons_left_le a r x
    rw [editRec_cons_cons, ← min_add_add_right, ← min_add_add_right]
    refine le_min (le_min ?_ ?_) ?_
    · omega
    · omega
    · split <;> omega

theorem editRec_substitute_right (r : CString) (c d : Char) :
    ∀ a : CString, editRec a (d :: r) ≤ editRec a (c :: r) + 1 := by
  intro a
  induction a with
  | nil => simp [editRec_nil_left]
  | cons x a ih =>
    have h1 := editRec_cons_left_le a (d :: r) x
    have h2 := editRec_cons_right_le (x :: a) r d
    have h3 := editRec_cons_cons_le a r x d
    rw [editRec_cons_cons x c, ← min_add_add_right, ← min_add_add_right]
    refine le_min (le_min ?_ ?_) ?_
    · omega
    · omega
    · split <;> omega

theorem editRec_lift_cons (s t : CString) (y : Char)
    (h : ∀ a : CString, editRec a t ≤ editRec a s + 1) :
    ∀ a : CString, editRec a (y :: t) ≤ editRec a (y :: s) + 1 := by
  intro a
  induction a with
  | nil =>
    have := h []
    simp only [editRec_nil_left, List.length_cons] at *
    omega
  | cons x a ih =>
    have h1 := editRec_cons_left_le a (y :: t) x
    have h2 := editRec_cons_right_le (x :: a) t y
    have h3 : editRec (x :: a) (y :: t) ≤ editRec a t + if x = y then 0 else 1 := by
      rw [editRec_cons_cons]; exact min_le_right _ _
    have h4 := h (x :: a)
    have h5 := h a
    rw [editRec_cons_cons x y a s, ← min_add_add_right, ← min_add_add_right]
    refine le_min (le_min ?_ ?_) ?_
    · omega
    · omega
    · omega

/-- One more edit raises the recurrence by at most one. -/
theorem editRec_step {s t : CString} (h : EditStep s t) :
    ∀ a : CString, editRec a t ≤ editRec a s + 1 := by
  cases h with
  | insertion l r c =>
    induction l with
    | nil => intro a; exact editRec_cons_right_le a r c
    | cons y l ih => exact editRec_lift_cons _ _ y ih
  | deletion l r c =>
    induction l with
    | nil => intro a; exact editRec_le_cons_right r c a
    | cons y l ih => exact editRec_lift_cons _ _ y ih
  | substitution l r c d =>
    induction l with
    | nil => intro a; exact editRec_substitute_right r c d a
    | cons y l ih => exact editRec_lift_cons _ _ y ih

theorem editRec_le_of_chain {n : Nat} {a b : CString} (h : EditChain n a b) :
    editRec a b ≤ n := by
  induction h with
  | done a => rw [editRec_self]
  | next _ hs ih => exact le_trans (editRec_step hs _) (by omega)

/-! ## C1: `levenshtein_distance` is the edit distance -/

theorem levenshtein_distance_chain (a b : CString) :
    EditChain (levenshtein_distance a b) a b := by
  rw [levenshtein_distance_eq_editRec]
  have := editChain_reverse (editRec_chain a.reverse b.reverse)
  simpa using this

theorem levenshtein_distance_le_of_chain {n : Nat} {a b : CString} (h : EditChain n a b) :
    levenshtein_distance a b ≤ n := by
  rw [levenshtein_distance_eq_editRec]
  exact editRec_le_of_chain (editChain_reverse h)

/-- C1: for all strings `a` and `b`, `levenshtein_distance a b` is the minimum number of
single-character insertions, deletions and substitutions that transform `a` into `b`:
some sequence of that many edits does it, and no sequence of edits doing it is
shorter. -/
theorem levenshtein_distance_is_edit_distance (a b : CString) :
    IsLeast {n : Nat | EditChain n a b} (levenshtein_distance a b) :=
  ⟨levenshtein_distance_chain a b, fun _ hn => levenshtein_distance_le_of_chain hn⟩

/-! ## `find_closest_words`: the insertion loop -/

theorem insert_closest_eq_insert_bounded (closest : List WordDistance) (word : CString)
    (distance : Nat) (h : closest.length = LEVENSHTEIN_LIST_LIMIT) :
    insert_closest closest word distance =
      insert_bounded { word := word, distance := distance } closest := by
  match closest, h with
  | [c0, c1, c2, c3, c4], _ =>
    by_cases h0 : distance < c0.distance <;> by_cases h1 : distance < c1.distance <;>
    by_cases h2 : distance < c2.distance <;> by_cases h3 : distance < c3.distance <;>
    by_cases h4 : distance < c4.distance <;>
    simp [insert_closest, shift_right, closest_read, LEVENSHTEIN_LIST_LIMIT, List.range,
      List.range.loop, List.range', insert_bounded, h0, h1, h2, h3, h4]

theorem insert_last_length (c : WordDistance) (l : List WordDistance) :
    (insert_last c l).length = l.length + 1 := by
  induction l with
  | nil => rfl
  | cons x xs ih =>
    unfold insert_last
    split <;> simp [ih]

theorem mem_insert_last (c x : WordDistance) (l : List WordDistance) :
    x ∈ insert_last c l ↔ x = c ∨ x ∈ l := by
  induction l with
  | nil => simp [insert_last]
  | cons y ys ih =>
    unfold insert_last
    split
    · simp
    · simp only [List.mem_cons, ih]
      tauto

theorem insert_last_sorted (c : WordDistance) (l : List WordDistance)
    (h : l.Pairwise distance_le) : (insert_last c l).Pairwise distance_le := by
  induction l with
  | nil => simp [insert_last]
  | cons y ys ih =>
    rw [List.pairwise_cons] at h
    unfold insert_last
    split
    · rename_i hlt
      refine List.pairwise_cons.2 ⟨?_, List.pairwise_cons.2 h⟩
      intro z hz
      rcases List.mem_cons.1 hz with rfl | hz
      · exact Nat.le_of_lt hlt
      · have := h.1 z hz
        unfold distance_le at *
        omega
    · rename_i hge
      refine List.pairwise_cons.2 ⟨?_, ih h.2⟩
      intro z hz
      rcases (mem_insert_last c z ys).1 hz with rfl | hz
      · unfold distance_le; omega
      · exact h.1 z hz

theorem insert_last_perm (c : WordDistance) (l : List WordDistance) :
    (insert_last c l).Perm (c :: l) := by
  induction l with
  | nil => simp [insert_last]
  | cons y ys ih =>
    unfold insert_last
    split
    · exact List.Perm.refl _
    · exact ((List.Perm.cons y ih).trans (List.Perm.swap c y ys))

theorem insert_bounded_eq_take (c : WordDistance) (l : List WordDistance) :
    insert_bounded c l = (insert_last c l).take l.length := by
  induction l with
  | nil => rfl
  | cons x xs ih =>
    unfold insert_bounded insert_last
    split
    · simp [List.dropLast_eq_take]
    · simp [ih]

theorem take_insert_last (c : WordDistance) :
    ∀ (l : List WordDistance) (n : Nat),
      (insert_last c l).take n = (insert_last c (l.take n)).take n := by
  intro l
  induction l with
  | nil => intro n; simp
  | cons x xs ih =>
    intro n
    cases n with
    | zero => simp
    | succ m =>
      rw [List.take_succ_cons]
      unfold insert_last
      split
      · rw [List.take_succ_cons, List.take_succ_cons]
        congr 1
        cases m with
        | zero => simp
        | succ k => simp [List.take_take]
      · rw [List.take_succ_cons, List.take_succ_cons, ih m]

/-- The ranking of all candidates, one insertion per candidate in store order. -/
theorem foldl_insert_bounded_eq_take (n : Nat) :
    ∀ (cands init : List WordDistance), n ≤ init.length →
      cands.foldl (fun acc c => insert_bounded c acc) (init.take n) =
        (cands.foldl (fun acc c => insert_last c acc) init).take n := by
  intro cands
  induction cands with
  | nil => intro init _; rfl
  | cons c cs ih =>
    intro init hlen
    simp only [List.foldl_cons]
    rw [← ih (insert_last c init) (by rw [insert_last_length]; omega)]
    congr 1
    rw [insert_bounded_eq_take, List.length_take, Nat.min_eq_left hlen, ← take_insert_last]

theorem insert_last_append (c : WordDistance) (r : List WordDistance)
    (h : ∀ x ∈ r, c.distance < x.distance) :
    ∀ s : List WordDistance, insert_last c (s ++ r) = insert_last c s ++ r := by
  intro s
  induction s with
  | nil =>
    cases r with
    | nil => rfl
    | cons y ys => simp [insert_last, h y (List.mem_cons_self _ _)]
  | cons x xs ih =>
    simp only [List.cons_append, insert_last]
    split
    · rfl
    · exact congrArg (fun t => x :: t) ih

theorem foldl_insert_last_append (r : List WordDistance) :
    ∀ (cands s : List WordDistance),
      (∀ c ∈ cands, ∀ x ∈ r, c.distance < x.distance) →
      cands.foldl (fun acc c => insert_last c acc) (s ++ r) =
        cands.foldl (fun acc c => insert_last c acc) s ++ r := by
  intro cands
  induction cands with
  | nil => intro s _; rfl
  | cons c cs ih =>
    intro s h
    simp only [List.foldl_cons]
    rw [insert_last_append c r (h c (List.mem_cons_self _ _)) s]
    exact ih _ (fun c' hc' => h c' (List.mem_cons_of_mem _ hc'))

theorem insert_last_orderedInsert (c a : WordDistance) :
    ∀ l : List WordDistance,
      insert_last c (List.orderedInsert distance_le a l) =
        List.orderedInsert distance_le a (insert_last c l) := by
  intro l
  induction l with
  | nil =>
    by_cases h : c.distance < a.distance
    · have h' : ¬ a.distance ≤ c.distance := by omega
      simp [insert_last, List.orderedInsert, distance_le, h, h']
    · have h' : a.distance ≤ c.distance := by omega
      simp [insert_last, List.orderedInsert, distance_le, h, h']
  | cons x xs ih =>
    by_cases h1 : a.distance ≤ x.distance <;> by_cases h2 : c.distance < x.distance <;>
      by_cases h3 : c.distance < a.distance
    all_goals first
      | (exfalso; omega)
      | (have h4 : ¬ a.distance ≤ c.distance := by omega
         simp [insert_last, List.orderedInsert, distance_le, h1, h2, h3, h4, ih])
      | (have h4 : a.distance ≤ c.distance := by omega
         simp [insert_last, List.orderedInsert, distance_le, h1, h2, h3, h4, ih])

theorem foldl_insert_last_orderedInsert (a : WordDistance) :
    ∀ (cands acc : List WordDistance),
      cands.foldl (fun acc c => insert_last c acc) (List.orderedInsert distance_le a acc) =
        List.orderedInsert distance_le a (cands.foldl (fun acc c => insert_last c acc) acc) := by
  intro cands
  induction cands with
  | nil => intro acc; rfl
  | cons c cs ih =>
    intro acc
    simp only [List.foldl_cons]
    rw [insert_last_orderedInsert, ih]

/-- Inserting the candidates one by one in store order is the stable insertion sort. -/
theorem foldl_insert_last_eq_insertionSort (cands : List WordDistance) :
    cands.foldl (fun acc c => insert_last c acc) [] = cands.insertionSort distance_le := by
  induction cands with
  | nil => rfl
  | cons a l ih =>
    simp only [List.foldl_cons, List.insertionSort]
    have : insert_last a [] = List.orderedInsert distance_le a [] := rfl
    rw [this, foldl_insert_last_orderedInsert, ih]

/-! ## `strcmp` and the distance of a dictionary word -/

theorem strcmp_eq_zero_iff : ∀ a b : CString, strcmp a b = 0 ↔ a = b := by
  intro a
  induction a with
  | nil =>
    intro b
    cases b with
    | nil => simp [strcmp]
    | cons d t => simp [strcmp]
  | cons c s ih =>
    intro b
    cases b with
    | nil => simp [strcmp]
    | cons d t =>
      unfold strcmp
      by_cases hcd : c = d
      · simp [hcd, ih]
      · simp only [hcd, if_false, List.cons.injEq, false_and, iff_false]
        split <;> decide

theorem levenshtein_distance_self (a : CString) : levenshtein_distance a a = 0 := by
  rw [levenshtein_distance_eq_editRec, editRec_self]

theorem editRec_le_max : ∀ a b : CString, editRec a b ≤ max a.length b.length := by
  intro a
  induction a with
  | nil => intro b; simp [editRec_nil_left]
  | cons x a ih =>
    intro b
    cases b with
    | nil => simp [editRec_nil_right]
    | cons y b =>
      have h1 := editRec_cons_cons_le a b x y
      have h2 := ih b
      simp only [List.length_cons]
      omega

theorem levenshtein_distance_le_max (a b : CString) :
    levenshtein_distance a b ≤ max a.length b.length := by
  rw [levenshtein_distance_eq_editRec]
  have := editRec_le_max a.reverse b.reverse
  simpa using this

/-- The short cut of lines 136-138 gives the distance the table would give. -/
theorem word_distance_eq (input_word entry : CString) :
    word_distance input_word entry = levenshtein_distance input_word entry := by
  unfold word_distance
  split
  · rename_i h
    rw [(strcmp_eq_zero_iff _ _).1 h, levenshtein_distance_self]
  · rfl

/-! ## `find_closest_words` as a ranking of the candidates -/

theorem insert_bounded_length (c : WordDistance) (l : List WordDistance) :
    (insert_bounded c l).length = l.length := by
  rw [insert_bounded_eq_take, List.length_take, insert_last_length]
  omega

theorem foldl_insert_closest (input_word : CString) :
    ∀ (ws : List CString) (init : List WordDistance),
      init.length = LEVENSHTEIN_LIST_LIMIT →
      ws.foldl (fun closest w => insert_closest closest w (word_distance input_word w)) init =
        (candidates input_word ws).foldl (fun acc c => insert_bounded c acc) init := by
  intro ws
  induction ws with
  | nil => intro init _; rfl
  | cons w ws ih =>
    intro init hlen
    simp only [candidates, List.map_cons, List.foldl_cons]
    rw [insert_closest_eq_insert_bounded _ _ _ hlen, word_distance_eq]
    exact ih _ (by rw [insert_bounded_length]; exact hlen)

/-- The array `closest` after the loops of `find_closest_words`: the first five entries of
the ranking that starts from five sentinels and receives every candidate in store
order. -/
theorem find_closest_words_eq_take (input_word : CString) (dictionary : List CString)
    (word_count : Nat) :
    find_closest_words input_word dictionary word_count =
      ((candidates input_word (store_words dictionary word_count)).foldl
        (fun acc c => insert_last c acc)
        (List.replicate LEVENSHTEIN_LIST_LIMIT SENTINEL)).take LEVENSHTEIN_LIST_LIMIT := by
  unfold find_closest_words store_words
  rw [← foldl_insert_bounded_eq_take _ _ _ (by simp), List.take_of_length_le (by simp),
    ← foldl_insert_closest _ _ _ (by simp), List.foldl_map]

theorem foldl_insert_last_length :
    ∀ (cands init : List WordDistance),
      (cands.foldl (fun acc c => insert_last c acc) init).length =
        init.length + cands.length := by
  intro cands
  induction cands with
  | nil => intro init; rfl
  | cons c cs ih =>
    intro init
    simp only [List.foldl_cons, List.length_cons]
    rw [ih, insert_last_length]
    omega

theorem foldl_insert_last_sorted :
    ∀ (cands init : List WordDistance), init.Pairwise distance_le →
      (cands.foldl (fun acc c => insert_last c acc) init).Pairwise distance_le := by
  intro cands
  induction cands with
  | nil => intro init h; exact h
  | cons c cs ih =>
    intro init h
    exact ih _ (insert_last_sorted c init h)

theorem mem_foldl_insert_last (x : WordDistance) :
    ∀ (cands init : List WordDistance),
      x ∈ cands.foldl (fun acc c => insert_last c acc) init ↔ x ∈ cands ∨ x ∈ init := by
  intro cands
  induction cands with
  | nil => intro init; simp
  | cons c cs ih =>
    intro init
    simp only [List.foldl_cons, ih, mem_insert_last, List.mem_cons]
    tauto

theorem sentinels_sorted :
    (List.replicate LEVENSHTEIN_LIST_LIMIT SENTINEL).Pairwise distance_le := by
  simp [List.pairwise_replicate, distance_le]

/-- The stable order of the specified ranking: the insertion sort of the candidates is a
rearrangement of them in ascending order of distance that keeps, for every
distance, the candidates of that distance in store order. -/
theorem insertionSort_candidates_stable (cands : List WordDistance) :
    (cands.insertionSort distance_le).Perm cands ∧
    (cands.insertionSort distance_le).Pairwise (fun a b => a.distance ≤ b.distance) ∧
    ∀ k : Nat, (cands.insertionSort distance_le).filter (fun c => decide (c.distance = k)) =
      cands.filter (fun c => decide (c.distance = k)) := by
  refine ⟨List.perm_insertionSort _ _, ?_, ?_⟩
  · rw [← foldl_insert_last_eq_insertionSort]
    exact foldl_insert_last_sorted cands [] List.Pairwise.nil
  · intro k
    have hsub : List.Sublist (cands.filter (fun c => decide (c.distance = k)))
        (cands.insertionSort distance_le) := by
      apply List.sublist_insertionSort
      · apply List.pairwise_of_forall_mem_list
        intro a ha b hb
        have ha2 := (List.mem_filter.1 ha).2
        have hb2 := (List.mem_filter.1 hb).2
        simp only [decide_eq_true_eq] at ha2 hb2
        unfold distance_le
        omega
      · exact List.filter_sublist _
    have hsub2 := hsub.filter (fun c => decide (c.distance = k))
    rw [List.filter_filter] at hsub2
    simp only [Bool.and_self] at hsub2
    have hlen := ((List.perm_insertionSort distance_le cands).filter
      (fun c => decide (c.distance = k))).length_eq
    exact (hsub2.eq_of_length hlen.symm).symm

theorem candidates_distance_lt (input_word : CString) (store : List CString)
    (h_input : input_word.length < INPUT_CHARACTER_LIMIT)
    (h_store : ∀ w ∈ store, w.length < INPUT_CHARACTER_LIMIT) :
    ∀ c ∈ candidates input_word store, c.distance < INT_MAX := by
  intro c hc
  simp only [candidates, List.mem_map] at hc
  obtain ⟨w, hw, rfl⟩ := hc
  have h1 := levenshtein_distance_le_max input_word w
  have h2 := h_store w hw
  simp only [INPUT_CHARACTER_LIMIT, INT_MAX] at *
  omega

theorem store_words_length (dictionary : List CString) (word_count : Nat) :
    (store_words dictionary word_count).length = word_count := by
  simp [store_words]

/-! ## C2, C3, C4: the ranked suggestions -/

/-- C2: for an input word and store words that fit their buffers (fewer than
`INPUT_CHARACTER_LIMIT` characters), `find_closest_words` returns the specified
ranking: the first five candidates (store word, distance to the input) in ascending
order of distance with candidates of equal distance in store order, followed by
sentinels; the order is a rearrangement of the candidates, ascending, that keeps
every group of equal distance in store order; and with fewer than five store words
every slot from `word_count` on is the sentinel (empty word, `INT_MAX`). -/
theorem find_closest_words_eq_ranked_suggestions (input_word : CString)
    (dictionary : List CString) (word_count : Nat)
    (h_input : input_word.length < INPUT_CHARACTER_LIMIT)
    (h_store : ∀ w ∈ store_words dictionary word_count, w.length < INPUT_CHARACTER_LIMIT) :
    find_closest_words input_word dictionary word_count =
        ranked_suggestions input_word (store_words dictionary word_count) ∧
    (((candidates input_word (store_words dictionary word_count)).insertionSort
          distance_le).Perm (candidates input_word (store_words dictionary word_count)) ∧
      ((candidates input_word (store_words dictionary word_count)).insertionSort
          distance_le).Pairwise (fun a b => a.distance ≤ b.distance) ∧
      ∀ k : Nat,
        ((candidates input_word (store_words dictionary word_count)).insertionSort
            distance_le).filter (fun c => decide (c.distance = k)) =
          (candidates input_word (store_words dictionary word_count)).filter
            (fun c => decide (c.distance = k))) ∧
    ∀ k : Nat, word_count ≤ k → k < LEVENSHTEIN_LIST_LIMIT →
      closest_read (find_closest_words input_word dictionary word_count) k = SENTINEL := by
  have heq : find_closest_words input_word dictionary word_count =
      ranked_suggestions input_word (store_words dictionary word_count) := by
    rw [find_closest_words_eq_take, ranked_suggestions,
      ← foldl_insert_last_eq_insertionSort]
    congr 1
    have := foldl_insert_last_append (List.replicate LEVENSHTEIN_LIST_LIMIT SENTINEL)
      (candidates input_word (store_words dictionary word_count)) []
      (by
        intro c hc x hx
        rw [List.eq_of_mem_replicate hx]
        exact candidates_distance_lt input_word _ h_input h_store c hc)
    simpa using this
  refine ⟨heq, insertionSort_candidates_stable _, ?_⟩
  intro k hk hk5
  rw [heq]
  unfold ranked_suggestions closest_read
  have hlen : ((candidates input_word (store_words dictionary word_count)).insertionSort
      distance_le).length = word_count := by
    rw [List.length_insertionSort]
    simp [candidates, store_words_length]
  rw [List.getD_eq_getElem?_getD, List.getElem?_take_of_lt hk5,
    List.getElem?_append_right (by omega), hlen,
    List.getElem?_replicate]
  simp only [LEVENSHTEIN_LIST_LIMIT] at *
  have : k - word_count < 5 := by omega
  simp [this]

/-- C3: for every word and every store, of any size, `find_closest_words` returns exactly
five entries, and their distances are in non-decreasing order. -/
theorem find_closest_words_five_sorted (input_word : CString) (dictionary : List CString)
    (word_count : Nat) :
    (find_closest_words input_word dictionary word_count).length = 5 ∧
    (find_closest_words input_word dictionary word_count).Pairwise
      (fun a b => a.distance ≤ b.distance) := by
  rw [find_closest_words_eq_take]
  constructor
  · rw [List.length_take, foldl_insert_last_length]
    simp [LEVENSHTEIN_LIST_LIMIT]
  · exact (foldl_insert_last_sorted _ _ sentinels_sorted).sublist (List.take_sublist _ _)

/-- C4: for every word and every store, the distance of entry 0 of the result of
`find_closest_words` is at most the distance from the word to any word of the
store. -/
theorem find_closest_words_first_le (input_word : CString) (dictionary : List CString)
    (word_count : Nat) :
    ∀ w ∈ store_words dictionary word_count,
      (closest_read (find_closest_words input_word dictionary word_count) 0).distance ≤
        levenshtein_distance input_word w := by
  intro w hw
  rw [find_closest_words_eq_take]
  have hsorted := foldl_insert_last_sorted
    (candidates input_word (store_words dictionary word_count)) _ sentinels_sorted
  have hmem := (mem_foldl_insert_last { word := w, distance := levenshtein_distance input_word w }
    (candidates input_word (store_words dictionary word_count))
    (List.replicate LEVENSHTEIN_LIST_LIMIT SENTINEL)).2
    (Or.inl (List.mem_map.2 ⟨w, hw, rfl⟩))
  generalize (candidates input_word (store_words dictionary word_count)).foldl
    (fun acc c => insert_last c acc) (List.replicate LEVENSHTEIN_LIST_LIMIT SENTINEL) = s
    at hsorted hmem
  cases s with
  | nil => simp at hmem
  | cons s0 rest =>
    simp only [closest_read, LEVENSHTEIN_LIST_LIMIT, List.take_succ_cons, List.getD_cons_zero]
    rcases List.mem_cons.1 hmem with h | h
    · rw [← h]
    · exact (List.pairwise_cons.1 hsorted).1 _ h

/-! ## C5 - C8: the decision of `process_word` -/

/-- C5: for a word that is not in the store and a reply that starts with a digit, a reply
whose number `k` is in `1 .. 5` resolves the word to the word of entry `k - 1` of the
ranked suggestions, a reply with any other number (`0`, `6`, ...) resolves it to the
lowercased word itself, and in both cases the dictionary array, the word count and
the dictionary file are unchanged. -/
theorem process_word_digit_reply (data : WordThreadData) (dictionary file : List CString)
    (received : CString) (fopen_ok : Bool)
    (h_unknown : is_in_dictionary (to_lowercase data.word) dictionary data.word_count = false)
    (h_digit : isdigit (charAt (strip_newline received) 0) = true) :
    (∀ k : Nat, 1 ≤ k → k ≤ 5 → atoi (strip_newline received) = (k : Int) →
      (process_word data dictionary file received fopen_ok).data.result =
        (closest_read
          (find_closest_words (to_lowercase data.word) dictionary data.word_count)
          (k - 1)).word) ∧
    (¬ (1 ≤ atoi (strip_newline received) ∧ atoi (strip_newline received) ≤ 5) →
      (process_word data dictionary file received fopen_ok).data.result =
        to_lowercase data.word) ∧
    (process_word data dictionary file received fopen_ok).dictionary = dictionary ∧
    (process_word data dictionary file received fopen_ok).data.word_count = data.word_count ∧
    (process_word data dictionary file received fopen_ok).file = file := by
  unfold process_word
  simp only [h_unknown, h_digit, Bool.false_eq_true, if_false, if_true]
  refine ⟨?_, ?_, ?_, ?_, ?_⟩
  · intro k hk1 hk5 hk
    have hc : atoi (strip_newline received) > 0 ∧
        atoi (strip_newline received) ≤ (LEVENSHTEIN_LIST_LIMIT : Int) := by
      simp only [LEVENSHTEIN_LIST_LIMIT, hk]
      omega
    rw [if_pos hc, hk]
    have : ((k : Int) - 1).toNat = k - 1 := by omega
    simp only [this]
  · intro hk
    have hc : ¬ (atoi (strip_newline received) > 0 ∧
        atoi (strip_newline received) ≤ (LEVENSHTEIN_LIST_LIMIT : Int)) := by
      simp only [LEVENSHTEIN_LIST_LIMIT]
      omega
    rw [if_neg hc]
  · split <;> rfl
  · split <;> rfl
  · split <;> rfl

/-- C6: for a word that is not in the store and a reply that neither starts with a digit
nor with `y` or `Y` (the empty reply, `n`, `no`, anything else), the word resolves to
the word of entry 0 of the ranked suggestions, and the dictionary array, the word
count and the dictionary file are unchanged. -/
theorem process_word_default_reply (data : WordThreadData) (dictionary file : List CString)
    (received : CString) (fopen_ok : Bool)
    (h_unknown : is_in_dictionary (to_lowercase data.word) dictionary data.word_count = false)
    (h_digit : isdigit (charAt (strip_newline received) 0) = false)
    (h_yes : tolower (charAt (strip_newline received) 0) ≠ Char.ofNat 121) :
    (process_word data dictionary file received fopen_ok).data.result =
      (closest_read
        (find_closest_words (to_lowercase data.word) dictionary data.word_count) 0).word ∧
    (process_word data dictionary file received fopen_ok).dictionary = dictionary ∧
    (process_word data dictionary file received fopen_ok).data.word_count = data.word_count ∧
    (process_word data dictionary file received fopen_ok).file = file := by
  unfold process_word
  simp only [h_unknown, h_digit, Bool.false_eq_true, if_false, if_neg h_yes]
  refine ⟨?_, ?_, ?_, ?_⟩ <;> first | rfl | trivial

/-- C7: when the store already holds 2500 words or more, `add_to_dictionary` changes
nothing (dictionary array, word count and dictionary file stay as they are), and a
reply starting with `y` or `Y` to an unknown word still resolves the word to the
lowercased word itself, with the store unchanged. -/
theorem add_to_dictionary_full (word : CString) (data : WordThreadData)
    (dictionary file : List CString) (received : CString) (fopen_ok : Bool)
    (h_full : DICTIONARY_CAPACITY ≤ data.word_count) :
    add_to_dictionary word
        { dictionary := dictionary, word_count := data.word_count, file := file } fopen_ok =
      { dictionary := dictionary, word_count := data.word_count, file := file } ∧
    (is_in_dictionary (to_lowercase data.word) dictionary data.word_count = false →
      isdigit (charAt (strip_newline received) 0) = false →
      tolower (charAt (strip_newline received) 0) = Char.ofNat 121 →
      (process_word data dictionary file received fopen_ok).data.result =
          to_lowercase data.word ∧
        (process_word data dictionary file received fopen_ok).dictionary = dictionary ∧
        (process_word data dictionary file received fopen_ok).data.word_count =
          data.word_count ∧
        (process_word data dictionary file received fopen_ok).file = file) := by
  have hadd : ∀ w : CString, add_to_dictionary w
      { dictionary := dictionary, word_count := data.word_count, file := file } fopen_ok =
      { dictionary := dictionary, word_count := data.word_count, file := file } := by
    intro w
    unfold add_to_dictionary
    rw [if_pos h_full]
  refine ⟨hadd word, ?_⟩
  intro h_unknown h_digit h_yes
  unfold process_word
  simp only [h_unknown, h_digit, Bool.false_eq_true, if_false, if_pos h_yes, hadd]
  refine ⟨?_, ?_, ?_, ?_⟩ <;> first | rfl | trivial

/-- C8: for a word that `is_in_dictionary` reports as present, `process_word` resolves the
word to itself (lowercased), reads no reply and sends no prompt, and leaves the
dictionary array, the word count and the dictionary file unchanged. -/
theorem process_word_known (data : WordThreadData) (dictionary file : List CString)
    (received : CString) (fopen_ok : Bool)
    (h_known : is_in_dictionary (to_lowercase data.word) dictionary data.word_count = true) :
    (process_word data dictionary file received fopen_ok).data.result =
      to_lowercase data.word ∧
    (process_word data dictionary file received fopen_ok).replies_read = 0 ∧
    Message.prompt ∉ (process_word data dictionary file received fopen_ok).sent ∧
    (process_word data dictionary file received fopen_ok).dictionary = dictionary ∧
    (process_word data dictionary file received fopen_ok).data.word_count = data.word_count ∧
    (process_word data dictionary file received fopen_ok).file = file := by
  unfold process_word
  simp only [h_known, if_true]
  refine ⟨?_, ?_, ?_, ?_, ?_, ?_⟩ <;> first | rfl | trivial | simp

/-! ## The order of `strcmp` -/

theorem char_toNat_inj {c d : Char} (h : c.toNat = d.toNat) : c = d := by
  apply Char.eq_of_val_eq
  apply UInt32.toNat.inj
  exact h

theorem strcmp_nil_left (b : CString) : strcmp [] b ≤ 0 := by
  cases b <;> simp [strcmp]

theorem strcmp_cons_cons (x y : Char) (s t : CString) :
    strcmp (x :: s) (y :: t) =
      if x = y then strcmp s t else if x.toNat < y.toNat then -1 else 1 := by
  rw [strcmp]

theorem strcmp_cons_cons_le (x y : Char) (s t : CString) :
    strcmp (x :: s) (y :: t) ≤ 0 ↔ (x = y ∧ strcmp s t ≤ 0) ∨ x.toNat < y.toNat := by
  rw [strcmp_cons_cons]
  by_cases hxy : x = y
  · subst hxy; simp
  · simp only [hxy, if_false, false_and, false_or]
    split <;> simp_all

theorem strcmp_le_trans : ∀ a b c : CString,
    strcmp a b ≤ 0 → strcmp b c ≤ 0 → strcmp a c ≤ 0 := by
  intro a
  induction a with
  | nil => intro b c _ _; exact strcmp_nil_left c
  | cons x s ih =>
    intro b c h1 h2
    cases b with
    | nil => simp [strcmp] at h1
    | cons y t =>
      cases c with
      | nil => simp [strcmp] at h2
      | cons z u =>
        rw [strcmp_cons_cons_le] at h1 h2 ⊢
        rcases h1 with ⟨rfl, h1⟩ | h1
        · rcases h2 with ⟨rfl, h2⟩ | h2
          · exact Or.inl ⟨rfl, ih t u h1 h2⟩
          · exact Or.inr h2
        · rcases h2 with ⟨rfl, _⟩ | h2
          · exact Or.inr h1
          · exact Or.inr (by omega)

theorem strcmp_le_of_gt : ∀ a b : CString, strcmp a b > 0 → strcmp b a ≤ 0 := by
  intro a
  induction a with
  | nil =>
    intro b h
    cases b <;> simp [strcmp] at h
  | cons x s ih =>
    intro b h
    cases b with
    | nil => exact strcmp_nil_left _
    | cons y t =>
      rw [strcmp_cons_cons_le]
      rw [strcmp_cons_cons] at h
      by_cases hxy : x = y
      · subst hxy
        simp only [if_true] at h
        exact Or.inl ⟨rfl, ih t h⟩
      · simp only [hxy, if_false] at h
        right
        by_cases hlt : x.toNat < y.toNat
        · simp [hlt] at h
        · have hne : x.toNat ≠ y.toNat := fun e => hxy (char_toNat_inj e)
          omega

/-! ## The dictionary array: reads and writes -/

theorem array_read_array_write (array : List CString) (i : Nat) (v : CString) (k : Nat) :
    array_read (array_write array i v) k = if k = i then v else array_read array k := by
  unfold array_read array_write
  by_cases hi : i < array.length
  · rw [if_pos hi]
    by_cases hk : k = i
    · subst hk
      simp [hi]
    · have hne : i ≠ k := fun e => hk e.symm
      simp [hk, List.getElem?_set_ne hne]
  · rw [if_neg hi]
    simp only [List.getD_eq_getElem?_getD]
    by_cases hk : k = i
    · subst hk
      rw [if_pos rfl, List.getElem?_append_right (by simp; omega)]
      simp
      have : k - (array.length + (k - array.length)) = 0 := by omega
      simp [this]
    · rw [if_neg hk]
      by_cases hk1 : k < array.length
      · rw [List.append_assoc, List.getElem?_append_left hk1]
      · rw [List.getElem?_eq_none (by omega : array.length ≤ k)]
        by_cases hk2 : k < i
        · rw [List.getElem?_append_left (by simp; omega),
            List.getElem?_append_right (by omega), List.getElem?_replicate]
          have : k - array.length < i - array.length := by omega
          simp [this]
        · rw [List.getElem?_eq_none (by simp; omega)]

theorem store_words_array_write (dictionary : List CString) (word_count : Nat)
    (word : CString) :
    store_words (array_write dictionary word_count word) (word_count + 1) =
      store_words dictionary word_count ++ [word] := by
  unfold store_words
  rw [List.range_succ, List.map_append]
  congr 1
  · apply List.map_congr_left
    intro k hk
    have : k ≠ word_count := by
      have := List.mem_range.1 hk
      omega
    rw [array_read_array_write, if_neg this]
  · simp [array_read_array_write]

theorem sort_swap_read (i j : Nat) (dictionary : List CString) (k : Nat) :
    array_read (sort_swap i dictionary j) k =
      if strcmp (array_read dictionary i) (array_read dictionary j) > 0 then
        array_read dictionary (Equiv.swap i j k)
      else array_read dictionary k := by
  unfold sort_swap
  split
  · simp only [array_read_array_write, Equiv.swap_apply_def]
    by_cases hkj : k = j
    · subst hkj
      by_cases hki : k = i
      · subst hki; simp
      · simp [hki]
    · by_cases hki : k = i
      · subst hki; simp [hkj]
      · simp [hki, hkj]
  · rfl

theorem store_words_perm_of_swap (d d' : List CString) (n i j : Nat) (hi : i < n) (hj : j < n)
    (h : ∀ k, array_read d' k = array_read d (Equiv.swap i j k)) :
    (store_words d' n).Perm (store_words d n) := by
  unfold store_words
  have e : List.map (array_read d') (List.range n) =
      List.map (array_read d) (List.map (fun k => Equiv.swap i j k) (List.range n)) := by
    rw [List.map_map]
    apply List.map_congr_left
    intro k _
    exact h k
  rw [e]
  apply List.Perm.map
  rw [List.perm_ext_iff_of_nodup
    ((List.nodup_range n).map (Equiv.swap i j).injective) (List.nodup_range n)]
  intro a
  simp only [List.mem_map, List.mem_range]
  constructor
  · rintro ⟨k, hk, rfl⟩
    rw [Equiv.swap_apply_def]
    split
    · exact hj
    · split
      · exact hi
      · exact hk
  · intro ha
    refine ⟨Equiv.swap i j a, ?_, Equiv.swap_apply_self i j a⟩
    rw [Equiv.swap_apply_def]
    split
    · exact hj
    · split
      · exact hi
      · exact ha

/-! ## The sorting loops of `add_to_dictionary` -/

theorem sort_swap_step (n i j : Nat) (d0 d : List CString) (hij : i < j) (hjn : j < n)
    (hperm : (store_words d n).Perm (store_words d0 n))
    (hP : sorted_before d n i) (hQ : pivot_least d i j) :
    (store_words (sort_swap i d j) n).Perm (store_words d0 n) ∧
      sorted_before (sort_swap i d j) n i ∧ pivot_least (sort_swap i d j) i (j + 1) := by
  by_cases hgt : strcmp (array_read d i) (array_read d j) > 0
  · have hread : ∀ k, array_read (sort_swap i d j) k = array_read d (Equiv.swap i j k) := by
      intro k
      rw [sort_swap_read, if_pos hgt]
    have hle := strcmp_le_of_gt _ _ hgt
    refine ⟨(store_words_perm_of_swap d _ n i j (by omega) hjn hread).trans hperm, ?_, ?_⟩
    · intro k l hk hkl hl
      rw [hread k, hread l, Equiv.swap_apply_of_ne_of_ne (by omega) (by omega),
        Equiv.swap_apply_def]
      split
      · exact hP k j hk (by omega) hjn
      · split
        · exact hP k i hk (by omega) (by omega)
        · exact hP k l hk hkl hl
    · intro l hil hlj
      rw [hread i, hread l, Equiv.swap_apply_left]
      by_cases hl : l = j
      · subst hl
        rw [Equiv.swap_apply_right]
        exact hle
      · rw [Equiv.swap_apply_of_ne_of_ne (by omega) hl]
        exact strcmp_le_trans _ _ _ hle (hQ l hil (by omega))
  · have hd : sort_swap i d j = d := by
      unfold sort_swap
      rw [if_neg hgt]
    rw [hd]
    refine ⟨hperm, hP, ?_⟩
    intro l hil hlj
    by_cases hl : l = j
    · subst hl
      omega
    · exact hQ l hil (by omega)

theorem sort_pass_spec (n i : Nat) (d0 d : List CString) (hi : i + 1 < n)
    (hperm : (store_words d n).Perm (store_words d0 n)) (hP : sorted_before d n i) :
    (store_words (sort_pass n d i) n).Perm (store_words d0 n) ∧
      sorted_before (sort_pass n d i) n (i + 1) := by
  have key := foldl_range'_invariant
    (fun j (d' : List CString) => (store_words d' n).Perm (store_words d0 n) ∧
      sorted_before d' n i ∧ pivot_least d' i j)
    (sort_swap i) (n - (i + 1)) (i + 1) d
    ⟨hperm, hP, by intro l h1 h2; omega⟩
    (by
      intro j st hj hj2 hst
      exact sort_swap_step n i j d0 st (by omega) (by omega) hst.1 hst.2.1 hst.2.2)
  have e : i + 1 + (n - (i + 1)) = n := by omega
  rw [e] at key
  refine ⟨key.1, ?_⟩
  intro k l hk hkl hl
  by_cases hki : k = i
  · subst hki
    exact key.2.2 l hkl hl
  · exact key.2.1 k l (by omega) hkl hl

theorem sort_dictionary_spec (n : Nat) (d0 : List CString) :
    (store_words (sort_dictionary d0 n) n).Perm (store_words d0 n) ∧
      sorted_before (sort_dictionary d0 n) n (n - 1) := by
  have key := foldl_range_invariant
    (fun i (d' : List CString) => (store_words d' n).Perm (store_words d0 n) ∧
      sorted_before d' n i)
    (sort_pass n) (n - 1) d0
    ⟨List.Perm.refl _, by intro k l hk; omega⟩
    (by
      intro i st hi hst
      exact sort_pass_spec n i d0 st (by omega) hst.1 hst.2)
  exact key

theorem store_words_sorted_of_sorted_before (d : List CString) (n : Nat)
    (h : sorted_before d n (n - 1)) :
    (store_words d n).Pairwise (fun a b => strcmp a b ≤ 0) := by
  unfold store_words
  rw [List.pairwise_map]
  refine List.Pairwise.imp_of_mem ?_ (List.pairwise_lt_range n)
  intro a b _ hb hab
  have := List.mem_range.1 hb
  exact h a b (by omega) hab this

/-! ## C9: an accepted insertion -/

/-- C9: for every store with fewer than 2500 words, sorted or not, and every word, after
`add_to_dictionary` the store (the slots below the new word count) is in ascending
`strcmp` order, is a rearrangement of the old store words plus the new word, and the
word count has grown by exactly one. -/
theorem add_to_dictionary_sorted_perm (word : CString) (s : DictionaryState) (fopen_ok : Bool)
    (h : s.word_count < DICTIONARY_CAPACITY) :
    (store_words (add_to_dictionary word s fopen_ok).dictionary
        (add_to_dictionary word s fopen_ok).word_count).Pairwise
      (fun a b => strcmp a b ≤ 0) ∧
    (store_words (add_to_dictionary word s fopen_ok).dictionary
        (add_to_dictionary word s fopen_ok).word_count).Perm
      (store_words s.dictionary s.word_count ++ [word]) ∧
    (add_to_dictionary word s fopen_ok).word_count = s.word_count + 1 := by
  have hspec := sort_dictionary_spec (s.word_count + 1)
    (array_write s.dictionary s.word_count word)
  rw [store_words_array_write] at hspec
  have hsorted := store_words_sorted_of_sorted_before _ _ hspec.2
  have hd : (add_to_dictionary word s fopen_ok).dictionary =
      sort_dictionary (array_write s.dictionary s.word_count word) (s.word_count + 1) := by
    unfold add_to_dictionary
    rw [if_neg (by omega)]
    cases fopen_ok <;> rfl
  have hc : (add_to_dictionary word s fopen_ok).word_count = s.word_count + 1 := by
    unfold add_to_dictionary
    rw [if_neg (by omega)]
    cases fopen_ok <;> rfl
  rw [hd, hc]
  exact ⟨hsorted, hspec.1, rfl⟩

/-! ## Worked examples -/

theorem find_closest_words_eq_ranked_suggestions_witness :
    ("bx".toList.length < INPUT_CHARACTER_LIMIT ∧
      ∀ w ∈ store_words example_dictionary 3, w.length < INPUT_CHARACTER_LIMIT) ∧
    find_closest_words "bx".toList example_dictionary 3 =
      ranked_suggestions "bx".toList (store_words example_dictionary 3) ∧
    closest_read (find_closest_words "bx".toList example_dictionary 3) 3 = SENTINEL :=
  have h1 : "bx".toList.length < INPUT_CHARACTER_LIMIT := by decide
  have h2 : ∀ w ∈ store_words example_dictionary 3, w.length < INPUT_CHARACTER_LIMIT := by
    decide
  ⟨⟨h1, h2⟩,
    (find_closest_words_eq_ranked_suggestions "bx".toList example_dictionary 3 h1 h2).1,
    (find_closest_words_eq_ranked_suggestions "bx".toList example_dictionary 3 h1 h2).2.2 3
      (by decide) (by decide)⟩

theorem find_closest_words_first_le_witness :
    "box".toList ∈ store_words example_dictionary 3 ∧
    (closest_read (find_closest_words "bx".toList example_dictionary 3) 0).distance ≤
      levenshtein_distance "bx".toList "box".toList :=
  have h : "box".toList ∈ store_words example_dictionary 3 := by decide
  ⟨h, find_closest_words_first_le "bx".toList example_dictionary 3 "box".toList h⟩

theorem process_word_digit_reply_witness :
    (is_in_dictionary (to_lowercase "Zx".toList) example_dictionary 3 = false ∧
      isdigit (charAt (strip_newline "2\n".toList) 0) = true ∧
      isdigit (charAt (strip_newline "6\n".toList) 0) = true) ∧
    (process_word (new_thread_data "Zx".toList 0 3) example_dictionary [] "2\n".toList
        true).data.result =
      (closest_read (find_closest_words (to_lowercase "Zx".toList) example_dictionary 3)
        (2 - 1)).word ∧
    (process_word (new_thread_data "Zx".toList 0 3) example_dictionary [] "6\n".toList
        true).data.result = to_lowercase "Zx".toList ∧
    (process_word (new_thread_data "Zx".toList 0 3) example_dictionary [] "2\n".toList
        true).dictionary = example_dictionary :=
  have h1 : is_in_dictionary (to_lowercase (new_thread_data "Zx".toList 0 3).word)
      example_dictionary (new_thread_data "Zx".toList 0 3).word_count = false := by decide
  have h2 : isdigit (charAt (strip_newline "2\n".toList) 0) = true := by decide
  have h3 : isdigit (charAt (strip_newline "6\n".toList) 0) = true := by decide
  ⟨⟨h1, h2, h3⟩,
    (process_word_digit_reply (new_thread_data "Zx".toList 0 3) example_dictionary []
      "2\n".toList true h1 h2).1 2 (by decide) (by decide) (by decide),
    (process_word_digit_reply (new_thread_data "Zx".toList 0 3) example_dictionary []
      "6\n".toList true h1 h3).2.1 (by decide),
    (process_word_digit_reply (new_thread_data "Zx".toList 0 3) example_dictionary []
      "2\n".toList true h1 h2).2.2.1⟩

theorem process_word_default_reply_witness :
    (is_in_dictionary (to_lowercase "Zx".toList) example_dictionary 3 = false ∧
      isdigit (charAt (strip_newline "no\n".toList) 0) = false ∧
      tolower (charAt (strip_newline "no\n".toList) 0) ≠ Char.ofNat 121) ∧
    (process_word (new_thread_data "Zx".toList 0 3) example_dictionary [] "no\n".toList
        true).data.result =
      (closest_read (find_closest_words (to_lowercase "Zx".toList) example_dictionary 3)
        0).word ∧
    (process_word (new_thread_data "Zx".toList 0 3) example_dictionary [] "no\n".toList
        true).dictionary = example_dictionary :=
  have h1 : is_in_dictionary (to_lowercase (new_thread_data "Zx".toList 0 3).word)
      example_dictionary (new_thread_data "Zx".toList 0 3).word_count = false := by decide
  have h2 : isdigit (charAt (strip_newline "no\n".toList) 0) = false := by decide
  have h3 : tolower (charAt (strip_newline "no\n".toList) 0) ≠ Char.ofNat 121 := by decide
  ⟨⟨h1, h2, h3⟩,
    (process_word_default_reply (new_thread_data "Zx".toList 0 3) example_dictionary []
      "no\n".toList true h1 h2 h3).1,
    (process_word_default_reply (new_thread_data "Zx".toList 0 3) example_dictionary []
      "no\n".toList true h1 h2 h3).2.1⟩

theorem process_word_known_witness :
    is_in_dictionary (to_lowercase "Box".toList) example_dictionary 3 = true ∧
    (process_word (new_thread_data "Box".toList 0 3) example_dictionary [] [] true).data.result =
      to_lowercase "Box".toList ∧
    (process_word (new_thread_data "Box".toList 0 3) example_dictionary [] [] true).replies_read
      = 0 :=
  have h1 : is_in_dictionary (to_lowercase (new_thread_data "Box".toList 0 3).word)
      example_dictionary (new_thread_data "Box".toList 0 3).word_count = true := by decide
  ⟨h1,
    (process_word_known (new_thread_data "Box".toList 0 3) example_dictionary [] [] true h1).1,
    (process_word_known (new_thread_data "Box".toList 0 3) example_dictionary [] [] true
      h1).2.1⟩

theorem add_to_dictionary_sorted_perm_witness :
    (3 : Nat) < DICTIONARY_CAPACITY ∧
    (store_words
        (add_to_dictionary "zx".toList
          { dictionary := example_dictionary, word_count := 3, file := [] } true).dictionary
        (add_to_dictionary "zx".toList
          { dictionary := example_dictionary, word_count := 3, file := [] } true).word_count).Pairwise
      (fun a b => strcmp a b ≤ 0) ∧
    (add_to_dictionary "zx".toList
      { dictionary := example_dictionary, word_count := 3, file := [] } true).word_count = 3 + 1 :=
  have h : ({ dictionary := example_dictionary, word_count := 3, file := [] } :
      DictionaryState).word_count < DICTIONARY_CAPACITY := by decide
  ⟨h,
    (add_to_dictionary_sorted_perm "zx".toList
      { dictionary := example_dictionary, word_count := 3, file := [] } true h).1,
    (add_to_dictionary_sorted_perm "zx".toList
      { dictionary := example_dictionary, word_count := 3, file := [] } true h).2.2⟩

theorem is_in_dictionary_eq_false (word : CString) (dictionary : List CString)
    (word_count : Nat) (h : ∀ i, i < word_count → array_read dictionary i ≠ word) :
    is_in_dictionary word dictionary word_count = false := by
  unfold is_in_dictionary
  rw [List.any_eq_false]
  intro i hi
  have := h i (List.mem_range.1 hi)
  simp only [decide_eq_true_eq, strcmp_eq_zero_iff]
  exact fun e => this e.symm

theorem full_dictionary_read (i : Nat) (h : i < 2500) :
    array_read full_dictionary i = "a".toList := by
  unfold array_read full_dictionary
  rw [List.getD_eq_getElem?_getD, List.getElem?_replicate]
  simp [h]

theorem add_to_dictionary_full_witness :
    DICTIONARY_CAPACITY ≤ (2500 : Nat) ∧
    add_to_dictionary "zx".toList
        { dictionary := full_dictionary, word_count := 2500, file := full_dictionary } true =
      { dictionary := full_dictionary, word_count := 2500, file := full_dictionary } ∧
    (process_word (new_thread_data "Zx".toList 0 2500) full_dictionary full_dictionary
        "Y\n".toList true).data.result = to_lowercase "Zx".toList ∧
    (process_word (new_thread_data "Zx".toList 0 2500) full_dictionary full_dictionary
        "Y\n".toList true).dictionary = full_dictionary :=
  have h : DICTIONARY_CAPACITY ≤ (new_thread_data "Zx".toList 0 2500).word_count := by decide
  have h1 : is_in_dictionary (to_lowercase (new_thread_data "Zx".toList 0 2500).word)
      full_dictionary (new_thread_data "Zx".toList 0 2500).word_count = false := by
    apply is_in_dictionary_eq_false
    intro i hi
    rw [full_dictionary_read i hi]
    decide
  have h2 : isdigit (charAt (strip_newline "Y\n".toList) 0) = false := by decide
  have h3 : tolower (charAt (strip_newline "Y\n".toList) 0) = Char.ofNat 121 := by decide
  ⟨h,
    (add_to_dictionary_full "zx".toList (new_thread_data "Zx".toList 0 2500) full_dictionary
      full_dictionary "Y\n".toList true h).1,
    ((add_to_dictionary_full "zx".toList (new_thread_data "Zx".toList 0 2500) full_dictionary
      full_dictionary "Y\n".toList true h).2 h1 h2 h3).1,
    ((add_to_dictionary_full "zx".toList (new_thread_data "Zx".toList 0 2500) full_dictionary
      full_dictionary "Y\n".toList true h).2 h1 h2 h3).2.1⟩

/-! ## C10: the reply `y` and the word count of the other threads -/

/-- C10 at a concrete input: the store holds `apple` and `box` (word count 2) and the
sentence has the unknown word `zx` twice. After the reply `y` to the first `zx` the
dictionary array and the dictionary file hold `apple`, `box`, `zx`, and the count in
the data of the first thread is 3; the data of the second thread still has the count
2 it got from `*word_count`, so `is_in_dictionary` does not find `zx` there and the
second `zx` is reported as not present again. -/
theorem process_word_yes_reply_count_not_shared :
    (process_word (new_thread_data "zx".toList 0 2) small_dictionary small_dictionary
        "y\n".toList true).dictionary = ["apple".toList, "box".toList, "zx".toList] ∧
    (process_word (new_thread_data "zx".toList 0 2) small_dictionary small_dictionary
        "y\n".toList true).file = ["apple".toList, "box".toList, "zx".toList] ∧
    (process_word (new_thread_data "zx".toList 0 2) small_dictionary small_dictionary
        "y\n".toList true).data.word_count = 3 ∧
    (new_thread_data "zx".toList 1 2).word_count = 2 ∧
    is_in_dictionary "zx".toList
      (process_word (new_thread_data "zx".toList 0 2) small_dictionary small_dictionary
        "y\n".toList true).dictionary
      (new_thread_data "zx".toList 1 2).word_count = false ∧
    (process_word (new_thread_data "zx".toList 1 2)
      (process_word (new_thread_data "zx".toList 0 2) small_dictionary small_dictionary
        "y\n".toList true).dictionary
      (process_word (new_thread_data "zx".toList 0 2) small_dictionary small_dictionary
        "y\n".toList true).file
      "n\n".toList true).sent.head? = some (Message.not_present "zx".toList) := by
  decide

/-! ## C16, C17, C18: the distance as a metric -/

theorem editStep_symm {s t : CString} (h : EditStep s t) : EditStep t s := by
  cases h with
  | insertion l r c => exact EditStep.deletion l r c
  | deletion l r c => exact EditStep.insertion l r c
  | substitution l r c d => exact EditStep.substitution l r d c

theorem editChain_symm {n : Nat} {a b : CString} (h : EditChain n a b) : EditChain n b a := by
  induction h with
  | done a => exact EditChain.done _
  | next _ hs ih =>
    exact editChain_cast (editChain_trans (editChain_single (editStep_symm hs)) ih)
      (Nat.add_comm 1 _)

/-- C16, the triangle inequality: for all strings `a`, `b`, `c`,
`levenshtein_distance a b ≤ levenshtein_distance a c + levenshtein_distance c b`. -/
theorem levenshtein_distance_triangle (a b c : CString) :
    levenshtein_distance a b ≤ levenshtein_distance a c + levenshtein_distance c b :=
  levenshtein_distance_le_of_chain
    (editChain_trans (levenshtein_distance_chain a c) (levenshtein_distance_chain c b))

/-- C17, symmetry: for all strings `a` and `b`,
`levenshtein_distance a b = levenshtein_distance b a`. -/
theorem levenshtein_distance_symm (a b : CString) :
    levenshtein_distance a b = levenshtein_distance b a :=
  Nat.le_antisymm
    (levenshtein_distance_le_of_chain (editChain_symm (levenshtein_distance_chain b a)))
    (levenshtein_distance_le_of_chain (editChain_symm (levenshtein_distance_chain a b)))

/-- C18, identity: for every string `a` the table of `levenshtein_distance a a` yields 0,
so the short cut of `find_closest_words` for equal strings (distance 0 without the
table) gives what `levenshtein_distance` gives: the distance given to any dictionary
word is its `levenshtein_distance`, and `find_closest_words` is the same ranking
loop run with `levenshtein_distance` for every word. -/
theorem levenshtein_distance_identity_shortcut (a : CString) :
    levenshtein_matrix a a a.length a.length = 0 ∧
    levenshtein_distance a a = 0 ∧
    word_distance a a = levenshtein_distance a a ∧
    (∀ entry : CString, word_distance a entry = levenshtein_distance a entry) ∧
    ∀ (dictionary : List CString) (word_count : Nat),
      find_closest_words a dictionary word_count =
        (List.range word_count).foldl
          (fun closest i =>
            insert_closest closest (array_read dictionary i)
              (levenshtein_distance a (array_read dictionary i)))
          (List.replicate LEVENSHTEIN_LIST_LIMIT SENTINEL) := by
  refine ⟨levenshtein_distance_self a, levenshtein_distance_self a, word_distance_eq a a,
    word_distance_eq a, ?_⟩
  intro dictionary word_count
  unfold find_closest_words
  simp only [word_distance_eq]

/-! ## C20: membership and ranking -/

theorem editChain_zero {a b : CString} (h : EditChain 0 a b) : a = b := by
  cases h
  rfl

theorem levenshtein_distance_eq_zero {a b : CString} (h : levenshtein_distance a b = 0) :
    a = b := by
  have hc := levenshtein_distance_chain a b
  rw [h] at hc
  exact editChain_zero hc

theorem is_in_dictionary_iff_mem (word : CString) (dictionary : List CString)
    (word_count : Nat) :
    is_in_dictionary word dictionary word_count = true ↔
      word ∈ store_words dictionary word_count := by
  unfold is_in_dictionary store_words
  simp only [List.any_eq_true, List.mem_range, decide_eq_true_eq, strcmp_eq_zero_iff,
    List.mem_map]
  constructor
  · rintro ⟨i, hi, h⟩
    exact ⟨i, hi, h.symm⟩
  · rintro ⟨i, hi, h⟩
    exact ⟨i, hi, h.symm⟩

/-- Every entry of the ranking is a candidate of the store or the sentinel. -/
theorem mem_find_closest_words {e : WordDistance} {input_word : CString}
    {dictionary : List CString} {word_count : Nat}
    (h : e ∈ find_closest_words input_word dictionary word_count) :
    e ∈ candidates input_word (store_words dictionary word_count) ∨ e = SENTINEL := by
  rw [find_closest_words_eq_take] at h
  rcases (mem_foldl_insert_last e _ _).1 (List.mem_of_mem_take h) with h1 | h1
  · exact Or.inl h1
  · exact Or.inr (List.eq_of_mem_replicate h1)

/-- Entry 0 of the ranking is in the ranking, and no candidate is closer. -/
theorem find_closest_words_first (input_word : CString) (dictionary : List CString)
    (word_count : Nat) :
    closest_read (find_closest_words input_word dictionary word_count) 0 ∈
        find_closest_words input_word dictionary word_count ∧
    ∀ c ∈ candidates input_word (store_words dictionary word_count),
      (closest_read (find_closest_words input_word dictionary word_count) 0).distance ≤
        c.distance := by
  rw [find_closest_words_eq_take]
  have hsorted := foldl_insert_last_sorted
    (candidates input_word (store_words dictionary word_count)) _ sentinels_sorted
  have hlen := foldl_insert_last_length
    (candidates input_word (store_words dictionary word_count))
    (List.replicate LEVENSHTEIN_LIST_LIMIT SENTINEL)
  have hmem := fun c => (mem_foldl_insert_last c
    (candidates input_word (store_words dictionary word_count))
    (List.replicate LEVENSHTEIN_LIST_LIMIT SENTINEL)).2
  generalize (candidates input_word (store_words dictionary word_count)).foldl
    (fun acc c => insert_last c acc) (List.replicate LEVENSHTEIN_LIST_LIMIT SENTINEL) = s
    at hsorted hmem hlen
  cases s with
  | nil =>
    simp only [LEVENSHTEIN_LIST_LIMIT, List.length_nil, List.length_replicate] at hlen
    omega
  | cons s0 rest =>
    simp only [closest_read, LEVENSHTEIN_LIST_LIMIT, List.take_succ_cons, List.getD_cons_zero]
    refine ⟨List.mem_cons_self _ _, ?_⟩
    intro c hc
    rcases List.mem_cons.1 (hmem c (Or.inl hc)) with h | h
    · rw [h]
    · exact (List.pairwise_cons.1 hsorted).1 _ h

/-- C20: for every word and every store, `is_in_dictionary` is true exactly when entry 0 of
the result of `find_closest_words` has distance 0, and then the word of entry 0 is the
input word itself; for a word that is not in the store every ranked entry has a
distance of at least 1. -/
theorem is_in_dictionary_iff_first_distance_zero (word : CString) (dictionary : List CString)
    (word_count : Nat) :
    (is_in_dictionary word dictionary word_count = true ↔
      (closest_read (find_closest_words word dictionary word_count) 0).distance = 0) ∧
    (is_in_dictionary word dictionary word_count = true →
      (closest_read (find_closest_words word dictionary word_count) 0).word = word) ∧
    (is_in_dictionary word dictionary word_count = false →
      ∀ e ∈ find_closest_words word dictionary word_count, 1 ≤ e.distance) := by
  have hfirst := find_closest_words_first word dictionary word_count
  have hzero : (closest_read (find_closest_words word dictionary word_count) 0).distance = 0 →
      (closest_read (find_closest_words word dictionary word_count) 0).word = word ∧
        word ∈ store_words dictionary word_count := by
    intro h0
    rcases mem_find_closest_words hfirst.1 with hc | hs
    · simp only [candidates, List.mem_map] at hc
      obtain ⟨w, hw, he⟩ := hc
      rw [← he] at h0 ⊢
      have := levenshtein_distance_eq_zero h0
      subst this
      exact ⟨rfl, hw⟩
    · rw [hs] at h0
      simp [SENTINEL, INT_MAX] at h0
  have hin : is_in_dictionary word dictionary word_count = true →
      (closest_read (find_closest_words word dictionary word_count) 0).distance = 0 := by
    intro h
    have hw := (is_in_dictionary_iff_mem _ _ _).1 h
    have := hfirst.2 { word := word, distance := levenshtein_distance word word }
      (List.mem_map.2 ⟨word, hw, rfl⟩)
    rw [levenshtein_distance_self] at this
    exact Nat.le_zero.1 this
  refine ⟨⟨hin, fun h0 => (is_in_dictionary_iff_mem _ _ _).2 (hzero h0).2⟩,
    fun h => (hzero (hin h)).1, ?_⟩
  intro hnot e he
  rcases mem_find_closest_words he with hc | hs
  · simp only [candidates, List.mem_map] at hc
    obtain ⟨w, hw, rfl⟩ := hc
    by_contra hlt
    have h0 : levenshtein_distance word w = 0 := by
      simp only at hlt
      omega
    have := levenshtein_distance_eq_zero h0
    subst this
    rw [(is_in_dictionary_iff_mem _ _ _).2 hw] at hnot
    exact Bool.noConfusion hnot
  · rw [hs]
    simp [SENTINEL, INT_MAX]

theorem is_in_dictionary_iff_first_distance_zero_witness :
    (is_in_dictionary "box".toList example_dictionary 3 = true ∧
      is_in_dictionary "bx".toList example_dictionary 3 = false) ∧
    (closest_read (find_closest_words "box".toList example_dictionary 3) 0).distance = 0 ∧
    (closest_read (find_closest_words "box".toList example_dictionary 3) 0).word =
      "box".toList ∧
    ∀ e ∈ find_closest_words "bx".toList example_dictionary 3, 1 ≤ e.distance :=
  have h1 : is_in_dictionary "box".toList example_dictionary 3 = true := by decide
  have h2 : is_in_dictionary "bx".toList example_dictionary 3 = false := by decide
  ⟨⟨h1, h2⟩,
    (is_in_dictionary_iff_first_distance_zero "box".toList example_dictionary 3).1.1 h1,
    (is_in_dictionary_iff_first_distance_zero "box".toList example_dictionary 3).2.1 h1,
    (is_in_dictionary_iff_first_distance_zero "bx".toList example_dictionary 3).2.2 h2⟩

/-! ## C12: validation comes before any word resolution -/

theorem rdropWhile_append_rest (p : Char → Bool) (l : CString) :
    ∃ t : CString, l = l.rdropWhile p ++ t ∧ ∀ x ∈ t, p x = true := by
  refine ⟨(l.reverse.takeWhile p).reverse, ?_, ?_⟩
  · have h := List.takeWhile_append_dropWhile p l.reverse
    have h2 := congrArg List.reverse h
    rw [List.reverse_append, List.reverse_reverse] at h2
    exact h2.symm
  · intro x hx
    exact List.mem_takeWhile_imp (List.mem_reverse.1 hx)

/-- What `trim_whitespace` cuts off is white space. -/
theorem trim_whitespace_append_rest (str : CString) :
    ∃ t : CString, str = trim_whitespace str ++ t ∧ ∀ x ∈ t, isspace x = true := by
  unfold trim_whitespace
  split
  · exact ⟨[], by simp, by simp⟩
  · exact rdropWhile_append_rest isspace str

theorem contains_invalid_characters_trim (str : CString) :
    contains_invalid_characters (trim_whitespace str) = contains_invalid_characters str := by
  obtain ⟨t, ht, hsp⟩ := trim_whitespace_append_rest str
  have hrest : contains_invalid_characters t = false := by
    unfold contains_invalid_characters
    rw [List.any_eq_false]
    intro x hx
    simp [hsp x hx]
  conv_rhs => rw [ht]
  unfold contains_invalid_characters at *
  rw [List.any_append, hrest, Bool.or_false]

/-- C12: a sentence text (the received text, as `trim_whitespace` leaves it without the
white space that ends the line) that is longer than 29 characters, or that contains a
character that is neither alphabetic nor white space, is rejected with a validation
error before any word is resolved: no thread data is set up, no message of a word
resolution and no prompt is sent, no reply is read, and the dictionary array and the
dictionary file are untouched. -/
theorem handle_connection_rejects (received : CString) (dictionary : List CString)
    (word_count : Nat) (file : List CString) (created : Nat → Bool) (order : List Nat)
    (replies : Nat → CString) (fopen_ok : Bool)
    (h : 29 < (trim_whitespace received).length ∨
      ∃ c ∈ received, isalpha c = false ∧ isspace c = false) :
    (handle_connection received dictionary word_count file created order replies fopen_ok).error ≠
      none ∧
    (handle_connection received dictionary word_count file created order replies fopen_ok).thread_data
      = [] ∧
    (handle_connection received dictionary word_count file created order replies fopen_ok).sent = [] ∧
    (handle_connection received dictionary word_count file created order replies fopen_ok).replies_read
      = 0 ∧
    (handle_connection received dictionary word_count file created order replies fopen_ok).dictionary
      = dictionary ∧
    (handle_connection received dictionary word_count file created order replies fopen_ok).file =
      file := by
  unfold handle_connection
  by_cases hlen : (trim_whitespace received).length > INPUT_CHARACTER_LIMIT - 1
  · simp only [hlen, if_true]
    refine ⟨?_, ?_, ?_, ?_, ?_, ?_⟩ <;> first | rfl | trivial
  · have hinv : contains_invalid_characters (trim_whitespace received) = true := by
      rcases h with h | ⟨c, hc, h1, h2⟩
      · exact absurd h (by simpa [INPUT_CHARACTER_LIMIT] using hlen)
      · rw [contains_invalid_characters_trim]
        unfold contains_invalid_characters
        rw [List.any_eq_true]
        exact ⟨c, hc, by simp [h1, h2]⟩
    simp only [hlen, if_false, hinv, if_true]
    refine ⟨?_, ?_, ?_, ?_, ?_, ?_⟩ <;> first | rfl | trivial

theorem handle_connection_rejects_witness :
    (29 < (trim_whitespace (List.replicate 30 (Char.ofNat 97))).length ∧
      ∃ c ∈ "cat 9og".toList, isalpha c = false ∧ isspace c = false) ∧
    ((handle_connection (List.replicate 30 (Char.ofNat 97)) small_dictionary 2
        small_dictionary all_created [0] (fun _ => "y\n".toList) true).error ≠ none ∧
      (handle_connection (List.replicate 30 (Char.ofNat 97)) small_dictionary 2
        small_dictionary all_created [0] (fun _ => "y\n".toList) true).sent = []) ∧
    (handle_connection "cat 9og".toList small_dictionary 2 small_dictionary all_created [0, 1]
        (fun _ => "y\n".toList) true).error ≠ none ∧
    (handle_connection "cat 9og".toList small_dictionary 2 small_dictionary all_created [0, 1]
        (fun _ => "y\n".toList) true).sent = [] ∧
    (handle_connection "cat 9og".toList small_dictionary 2 small_dictionary all_created [0, 1]
        (fun _ => "y\n".toList) true).dictionary = small_dictionary :=
  have h1 : 29 < (trim_whitespace (List.replicate 30 (Char.ofNat 97))).length := by decide
  have h2 : ∃ c ∈ "cat 9og".toList, isalpha c = false ∧ isspace c = false := by decide
  ⟨⟨h1, h2⟩,
    ⟨(handle_connection_rejects (List.replicate 30 (Char.ofNat 97)) small_dictionary 2
        small_dictionary all_created [0] (fun _ => "y\n".toList) true (Or.inl h1)).1,
      (handle_connection_rejects (List.replicate 30 (Char.ofNat 97)) small_dictionary 2
        small_dictionary all_created [0] (fun _ => "y\n".toList) true (Or.inl h1)).2.2.1⟩,
    (handle_connection_rejects "cat 9og".toList small_dictionary 2 small_dictionary all_created [0, 1]
      (fun _ => "y\n".toList) true (Or.inr h2)).1,
    (handle_connection_rejects "cat 9og".toList small_dictionary 2 small_dictionary all_created [0, 1]
      (fun _ => "y\n".toList) true (Or.inr h2)).2.2.1,
    (handle_connection_rejects "cat 9og".toList small_dictionary 2 small_dictionary all_created [0, 1]
      (fun _ => "y\n".toList) true (Or.inr h2)).2.2.2.2.1⟩

/-! ## C13: the words handed to the resolvers -/

/-- C13 at a concrete input: the text `cat`, tab, `dog` passes the validation (a tab is
white space for `isspace`), and `strtok` with the delimiter `" "` does not cut it: the
only word handed to a resolver is `cat`, tab, `dog`, which holds a character that is
not alphabetic, where a split on runs of white space gives the two words `cat` and
`dog`. -/
theorem input_words_tab_not_split :
    (handle_connection "cat\tdog\n".toList small_dictionary 2 small_dictionary all_created [0]
      (fun _ => "n\n".toList) true).error = none ∧
    isspace (Char.ofNat 9) = true ∧
    input_words "cat\tdog\n".toList = ["cat\tdog".toList] ∧
    input_words "cat\tdog\n".toList ≠ ["cat".toList, "dog".toList] ∧
    (∃ w ∈ input_words "cat\tdog\n".toList, ∃ c ∈ w, isalpha c = false) ∧
    ((handle_connection "cat\tdog\n".toList small_dictionary 2 small_dictionary all_created [0]
      (fun _ => "n\n".toList) true).thread_data.map (fun data => data.word)) =
      ["cat\tdog".toList] := by
  decide

/-! ## The word threads of a connection -/

theorem process_word_index (data : WordThreadData) (dictionary file : List CString)
    (received : CString) (fopen_ok : Bool) :
    (process_word data dictionary file received fopen_ok).data.index = data.index := by
  unfold process_word
  simp only []
  split_ifs <;> rfl

theorem process_word_word (data : WordThreadData) (dictionary file : List CString)
    (received : CString) (fopen_ok : Bool) :
    (process_word data dictionary file received fopen_ok).data.word =
      to_lowercase data.word := by
  unfold process_word
  simp only []
  split_ifs <;> rfl

theorem run_thread_of_none (replies : Nat → CString) (fopen_ok : Bool) (st : ThreadsState)
    (i : Nat) (h : st.thread_data[i]? = none) : run_thread replies fopen_ok st i = st := by
  unfold run_thread
  rw [h]

theorem run_thread_of_some (replies : Nat → CString) (fopen_ok : Bool) (st : ThreadsState)
    (i : Nat) (data : WordThreadData) (h : st.thread_data[i]? = some data) :
    run_thread replies fopen_ok st i =
      { thread_data := st.thread_data.set i
          (process_word data st.dictionary st.file (replies st.replies_read) fopen_ok).data,
        dictionary :=
          (process_word data st.dictionary st.file (replies st.replies_read)
            fopen_ok).dictionary,
        file :=
          (process_word data st.dictionary st.file (replies st.replies_read) fopen_ok).file,
        sent := st.sent ++
          (process_word data st.dictionary st.file (replies st.replies_read) fopen_ok).sent,
        replies_read := st.replies_read +
          (process_word data st.dictionary st.file (replies st.replies_read)
            fopen_ok).replies_read } := by
  unfold run_thread
  rw [h]

theorem run_thread_length (replies : Nat → CString) (fopen_ok : Bool) (st : ThreadsState)
    (i : Nat) :
    (run_thread replies fopen_ok st i).thread_data.length = st.thread_data.length := by
  cases h : st.thread_data[i]? with
  | none => rw [run_thread_of_none _ _ _ _ h]
  | some data => rw [run_thread_of_some _ _ _ _ _ h]; simp

theorem run_thread_getElem?_ne (replies : Nat → CString) (fopen_ok : Bool)
    (st : ThreadsState) (i j : Nat) (hij : i ≠ j) :
    (run_thread replies fopen_ok st i).thread_data[j]? = st.thread_data[j]? := by
  cases h : st.thread_data[i]? with
  | none => rw [run_thread_of_none _ _ _ _ h]
  | some data =>
    rw [run_thread_of_some _ _ _ _ _ h]
    simp only [List.getElem?_set_ne hij]

theorem run_thread_getElem?_self (replies : Nat → CString) (fopen_ok : Bool)
    (st : ThreadsState) (i : Nat) (data : WordThreadData)
    (h : st.thread_data[i]? = some data) :
    (run_thread replies fopen_ok st i).thread_data[i]? =
      some (process_word data st.dictionary st.file (replies st.replies_read)
        fopen_ok).data := by
  rw [run_thread_of_some _ _ _ _ _ h]
  have hi : i < st.thread_data.length := by
    by_contra hlt
    rw [List.getElem?_eq_none (by omega)] at h
    exact Option.noConfusion h
  simp only [List.getElem?_set_self hi]

/-- Slot `j` of `thread_data` holds the data whose `index` is `j`. -/
theorem run_thread_index (replies : Nat → CString) (fopen_ok : Bool) (st : ThreadsState)
    (i : Nat)
    (h : ∀ (j : Nat) (data : WordThreadData), st.thread_data[j]? = some data → data.index = j) :
    ∀ (j : Nat) (data : WordThreadData),
      (run_thread replies fopen_ok st i).thread_data[j]? = some data →
      data.index = j := by
  intro j data hj
  by_cases hij : i = j
  · subst hij
    cases hd : st.thread_data[i]? with
    | none =>
      rw [run_thread_of_none _ _ _ _ hd, hd] at hj
      exact Option.noConfusion hj
    | some d0 =>
      rw [run_thread_getElem?_self _ _ _ _ _ hd] at hj
      have := Option.some.inj hj
      rw [← this, process_word_index]
      exact h i d0 hd
  · rw [run_thread_getElem?_ne _ _ _ _ _ hij] at hj
    exact h j data hj

theorem run_threads_length (replies : Nat → CString) (fopen_ok : Bool) :
    ∀ (order : List Nat) (st : ThreadsState),
      (run_threads replies fopen_ok order st).thread_data.length = st.thread_data.length := by
  intro order
  induction order with
  | nil => intro st; rfl
  | cons i rest ih =>
    intro st
    unfold run_threads at ih ⊢
    rw [List.foldl_cons, ih, run_thread_length]

theorem run_threads_index (replies : Nat → CString) (fopen_ok : Bool) :
    ∀ (order : List Nat) (st : ThreadsState),
      (∀ (j : Nat) (data : WordThreadData), st.thread_data[j]? = some data → data.index = j) →
      ∀ (j : Nat) (data : WordThreadData),
        (run_threads replies fopen_ok order st).thread_data[j]? = some data →
        data.index = j := by
  intro order
  induction order with
  | nil => intro st h; exact h
  | cons i rest ih =>
    intro st h
    unfold run_threads at ih ⊢
    rw [List.foldl_cons]
    exact ih _ (run_thread_index replies fopen_ok st i h)

theorem init_thread_data_getElem? (word_count : Nat) :
    ∀ (words : List CString) (i j : Nat),
      (init_thread_data word_count i words)[j]? =
        (words[j]?).map (fun w => new_thread_data w (i + j) word_count) := by
  intro words
  induction words with
  | nil => intro i j; simp [init_thread_data]
  | cons w ws ih =>
    intro i j
    cases j with
    | zero => simp [init_thread_data]
    | succ j =>
      simp only [init_thread_data, List.getElem?_cons_succ, ih]
      have : i + 1 + j = i + (j + 1) := by omega
      rw [this]

theorem init_thread_data_length (word_count : Nat) :
    ∀ (words : List CString) (i : Nat),
      (init_thread_data word_count i words).length = words.length := by
  intro words
  induction words with
  | nil => intro i; rfl
  | cons w ws ih => intro i; simp [init_thread_data, ih]

/-! ## The corrected sentence -/

theorem find?_congr_mem {p q : Nat → Bool} :
    ∀ (l : List Nat), (∀ x ∈ l, p x = q x) → l.find? p = l.find? q := by
  intro l
  induction l with
  | nil => intro _; rfl
  | cons x xs ih =>
    intro h
    simp only [List.find?, h x (List.mem_cons_self _ _)]
    rw [ih (fun y hy => h y (List.mem_cons_of_mem _ hy))]

theorem find?_range_eq (i : Nat) :
    ∀ n : Nat, (List.range n).find? (fun j => decide (j = i)) =
      if i < n then some i else none := by
  intro n
  induction n with
  | zero => simp
  | succ n ih =>
    rw [List.range_succ, List.find?_append, ih]
    by_cases h1 : i < n
    · simp [h1, Nat.lt_succ_of_lt h1]
    · by_cases h2 : n = i
      · subst h2
        simp
      · have h3 : ¬ i < n + 1 := by omega
        simp [h1, h2, h3]

/-- The scan of lines 302-303 finds slot `i` itself, when `i` is below `thread_count`. -/
theorem find_thread_eq (thread_data : List WordThreadData) (thread_count i : Nat)
    (hcount : thread_count ≤ thread_data.length)
    (h : ∀ (j : Nat) (data : WordThreadData), thread_data[j]? = some data → data.index = j) :
    find_thread thread_data thread_count i = if i < thread_count then some i else none := by
  unfold find_thread
  rw [← find?_range_eq i thread_count]
  apply find?_congr_mem
  intro j hj
  have hj2 : j < thread_data.length := by
    have := List.mem_range.1 hj
    omega
  rw [List.getElem?_eq_getElem hj2]
  simp only []
  rw [h j _ (List.getElem?_eq_getElem hj2)]

theorem concat_spaces_append (l : List CString) (w : CString) :
    concat_spaces (l ++ [w]) = concat_spaces l ++ w ++ [Char.ofNat 32] := by
  induction l with
  | nil => simp [concat_spaces]
  | cons x xs ih => simp [concat_spaces, ih]

theorem concat_spaces_append_list (l1 l2 : List CString) :
    concat_spaces (l1 ++ l2) = concat_spaces l1 ++ concat_spaces l2 := by
  induction l1 with
  | nil => simp [concat_spaces]
  | cons x xs ih => simp [concat_spaces, ih]

theorem concat_spaces_take_length_le (l : List CString) (k : Nat) :
    (concat_spaces (l.take k)).length ≤ (concat_spaces l).length := by
  conv_rhs => rw [← List.take_append_drop k l, concat_spaces_append_list]
  simp

theorem concat_spaces_eq_join_words :
    ∀ (w : CString) (ws : List CString),
      concat_spaces (w :: ws) = join_words (w :: ws) ++ [Char.ofNat 32] := by
  intro w ws
  induction ws generalizing w with
  | nil => simp [concat_spaces, join_words]
  | cons w' ws ih =>
    rw [concat_spaces, ih w', join_words]
    simp

/-- The loop of lines 301-309 appends the results in the order of the slots, as long as
every thread was created and the results with their spaces fit the buffer. -/
theorem foldl_append_result (thread_data : List WordThreadData) (created : Nat → Bool)
    (h : ∀ (j : Nat) (data : WordThreadData), thread_data[j]? = some data → data.index = j)
    (hcreated : ∀ j, j < thread_data.length → created j = true)
    (hfits : (concat_spaces (thread_data.map (fun data => data.result))).length <
      INPUT_CHARACTER_LIMIT) :
    (List.range thread_data.length).foldl
        (append_result thread_data thread_data.length created) (some []) =
      some (concat_spaces (thread_data.map (fun data => data.result))) := by
  have key := foldl_range_invariant
    (fun k (s : Option CString) =>
      s = some (concat_spaces ((thread_data.take k).map (fun data => data.result))))
    (append_result thread_data thread_data.length created) thread_data.length (some [])
    (by simp [concat_spaces])
    (by
      intro k st hk hst
      have hle := concat_spaces_take_length_le
        (thread_data.map (fun data => data.result)) (k + 1)
      rw [← List.map_take, List.take_succ, List.getElem?_eq_getElem hk] at hle
      simp only [Option.toList, List.map_append, List.map_cons, List.map_nil] at hle
      rw [concat_spaces_append] at hle
      simp only [List.length_append, List.length_cons, List.length_nil] at hle
      unfold append_result
      rw [find_thread_eq thread_data thread_data.length k (le_refl _) h, if_pos hk]
      simp only []
      rw [List.getElem?_eq_getElem hk]
      simp only []
      rw [if_pos (hcreated k hk), hst]
      unfold buffer_strcat
      simp only []
      rw [if_pos (by omega)]
      simp only []
      rw [if_pos (by simp only [List.length_append, List.length_cons, List.length_nil]; omega)]
      rw [List.take_succ, List.getElem?_eq_getElem hk]
      simp only [Option.toList, List.map_append, List.map_cons, List.map_nil]
      rw [concat_spaces_append])
  simp only [List.take_length] at key
  exact key

theorem strip_last_space (ws : List CString) :
    (if (concat_spaces ws).length > 0 ∧
        charAt (concat_spaces ws) ((concat_spaces ws).length - 1) = Char.ofNat 32 then
      some ((concat_spaces ws).take ((concat_spaces ws).length - 1))
    else some (concat_spaces ws)) = some (join_words ws) := by
  cases ws with
  | nil => simp [concat_spaces, join_words]
  | cons w ws =>
    rw [concat_spaces_eq_join_words]
    have h1 : (join_words (w :: ws) ++ [Char.ofNat 32]).length > 0 := by simp
    have h2 : charAt (join_words (w :: ws) ++ [Char.ofNat 32])
        ((join_words (w :: ws) ++ [Char.ofNat 32]).length - 1) = Char.ofNat 32 := by
      unfold charAt
      simp [List.getD_eq_getElem?_getD]
    rw [if_pos ⟨h1, h2⟩]
    simp

theorem assemble_sentence_eq (thread_data : List WordThreadData) (created : Nat → Bool)
    (h : ∀ (j : Nat) (data : WordThreadData), thread_data[j]? = some data → data.index = j)
    (hcreated : ∀ j, j < thread_data.length → created j = true)
    (hfits : (concat_spaces (thread_data.map (fun data => data.result))).length <
      INPUT_CHARACTER_LIMIT) :
    assemble_sentence thread_data thread_data.length thread_data.length created =
      some (join_words (thread_data.map (fun data => data.result))) := by
  unfold assemble_sentence
  rw [foldl_append_result thread_data created h hcreated hfits]
  simp only []
  exact strip_last_space _

theorem count_threads_all (created : Nat → Bool) (n : Nat)
    (h : ∀ j, j < n → created j = true) : count_threads created n = n := by
  unfold count_threads
  rw [List.filter_eq_self.2 (fun j hj => h j (List.mem_range.1 hj)), List.length_range]

theorem handle_connection_accepted (received : CString) (dictionary : List CString)
    (word_count : Nat) (file : List CString) (created : Nat → Bool) (order : List Nat)
    (replies : Nat → CString) (fopen_ok : Bool)
    (h : (handle_connection received dictionary word_count file created order replies
      fopen_ok).error = none) :
    (trim_whitespace received).length ≤ 29 ∧
    contains_invalid_characters (trim_whitespace received) = false ∧
    handle_connection received dictionary word_count file created order replies fopen_ok =
      { error := none,
        original_input := to_lowercase (trim_whitespace received),
        thread_data := (run_threads replies fopen_ok (order.filter created)
          (threads_start received dictionary word_count file)).thread_data,
        dictionary := (run_threads replies fopen_ok (order.filter created)
          (threads_start received dictionary word_count file)).dictionary,
        file := (run_threads replies fopen_ok (order.filter created)
          (threads_start received dictionary word_count file)).file,
        sent := (run_threads replies fopen_ok (order.filter created)
          (threads_start received dictionary word_count file)).sent,
        replies_read := (run_threads replies fopen_ok (order.filter created)
          (threads_start received dictionary word_count file)).replies_read,
        corrected_sentence := assemble_sentence
          (run_threads replies fopen_ok (order.filter created)
            (threads_start received dictionary word_count file)).thread_data
          (input_words received).length
          (count_threads created (input_words received).length) created } := by
  unfold handle_connection at h ⊢
  by_cases hlen : (trim_whitespace received).length > INPUT_CHARACTER_LIMIT - 1
  · simp [hlen] at h
  · by_cases hinv : contains_invalid_characters (trim_whitespace received) = true
    · simp [hlen, hinv] at h
    · simp only [hlen, hinv, if_false, Bool.false_eq_true]
      refine ⟨by simpa [INPUT_CHARACTER_LIMIT] using hlen, by simp [hinv], rfl⟩

theorem handle_connection_rejected (received : CString) (dictionary : List CString)
    (word_count : Nat) (file : List CString) (created : Nat → Bool) (order : List Nat)
    (replies : Nat → CString) (fopen_ok : Bool)
    (h : (handle_connection received dictionary word_count file created order replies
      fopen_ok).error ≠ none) :
    (handle_connection received dictionary word_count file created order replies
      fopen_ok).thread_data = [] ∧
    (handle_connection received dictionary word_count file created order replies
      fopen_ok).dictionary = dictionary ∧
    (handle_connection received dictionary word_count file created order replies
      fopen_ok).file = file := by
  unfold handle_connection at h ⊢
  by_cases hlen : (trim_whitespace received).length > INPUT_CHARACTER_LIMIT - 1
  · simp only [hlen, if_true]
    refine ⟨?_, ?_, ?_⟩ <;> first | rfl | trivial
  · by_cases hinv : contains_invalid_characters (trim_whitespace received) = true
    · simp only [hlen, hinv, if_false, if_true]
      refine ⟨?_, ?_, ?_⟩ <;> first | rfl | trivial
    · simp [hlen, hinv] at h

/-- With every thread taking the mutex once, slot `i` ends with the data that one run of
`process_word` left for the data the slot started with. -/
theorem run_threads_resolved (replies : Nat → CString) (fopen_ok : Bool)
    (start : Nat → WordThreadData) :
    ∀ (order : List Nat) (st : ThreadsState), order.Nodup →
      (∀ i ∈ order, ∀ data : WordThreadData, st.thread_data[i]? = some data →
        data = start i) →
      (∀ i ∈ order, ∀ data : WordThreadData,
        (run_threads replies fopen_ok order st).thread_data[i]? = some data →
        ∃ (d f : List CString) (rec : CString),
          data = (process_word (start i) d f rec fopen_ok).data) ∧
      ∀ i, i ∉ order →
        (run_threads replies fopen_ok order st).thread_data[i]? = st.thread_data[i]? := by
  intro order
  induction order with
  | nil =>
    intro st _ _
    exact ⟨fun i hi => absurd hi (List.not_mem_nil i), fun i _ => rfl⟩
  | cons idx rest ih =>
    intro st hnodup hstart
    have hnd := List.nodup_cons.1 hnodup
    have hstart1 : ∀ i ∈ rest, ∀ data : WordThreadData,
        (run_thread replies fopen_ok st idx).thread_data[i]? = some data →
        data = start i := by
      intro i hi data hdata
      have hne : idx ≠ i := fun e => hnd.1 (e ▸ hi)
      rw [run_thread_getElem?_ne _ _ _ _ _ hne] at hdata
      exact hstart i (List.mem_cons_of_mem _ hi) data hdata
    have ih1 := ih (run_thread replies fopen_ok st idx) hnd.2 hstart1
    have hrun : run_threads replies fopen_ok (idx :: rest) st =
        run_threads replies fopen_ok rest (run_thread replies fopen_ok st idx) := rfl
    rw [hrun]
    refine ⟨?_, ?_⟩
    · intro i hi data hdata
      rcases List.mem_cons.1 hi with rfl | hi
      · rw [ih1.2 i hnd.1] at hdata
        cases hd : st.thread_data[i]? with
        | none =>
          rw [run_thread_of_none _ _ _ _ hd, hd] at hdata
          exact Option.noConfusion hdata
        | some d0 =>
          rw [run_thread_getElem?_self _ _ _ _ _ hd] at hdata
          have h0 := hstart i (List.mem_cons_self _ _) d0 hd
          subst h0
          exact ⟨_, _, _, (Option.some.inj hdata).symm⟩
      · exact ih1.1 i hi data hdata
    · intro i hi
      have hne : idx ≠ i := fun e => hi (e ▸ List.mem_cons_self _ _)
      rw [ih1.2 i (fun h => hi (List.mem_cons_of_mem _ h)),
        run_thread_getElem?_ne _ _ _ _ _ hne]

theorem threads_start_index (received : CString) (dictionary : List CString)
    (word_count : Nat) (file : List CString) :
    ∀ (j : Nat) (data : WordThreadData),
      (threads_start received dictionary word_count file).thread_data[j]? = some data →
      data = new_thread_data ((input_words received).getD j []) j word_count := by
  intro j data h
  simp only [threads_start, init_thread_data_getElem?, Nat.zero_add] at h
  cases hw : (input_words received)[j]? with
  | none => rw [hw] at h; exact Option.noConfusion h
  | some w =>
    rw [hw] at h
    simp only [Option.map_some'] at h
    rw [← Option.some.inj h, List.getD_eq_getElem?_getD, hw]
    rfl

/-- The sentence `handle_connection` puts together when every thread is created, every
thread takes the mutex once and the results, each followed by a space, fit the
buffer `corrected_sentence`: the results in the order of the words in the input,
joined by exactly one space; `thread_data` has one slot per word, slot `i` carries
index `i` and the data one run of `process_word` returned for word `i`; with zero
words the sentence is the empty string. -/
theorem handle_connection_sentence_of_fits (received : CString) (dictionary : List CString)
    (word_count : Nat) (file : List CString) (created : Nat → Bool) (order : List Nat)
    (replies : Nat → CString) (fopen_ok : Bool)
    (h_accepted :
      (handle_connection received dictionary word_count file created order replies
        fopen_ok).error = none)
    (h_created : ∀ i, i < (input_words received).length → created i = true)
    (h_order : order.Perm (List.range (input_words received).length))
    (h_fits :
      (concat_spaces
        ((handle_connection received dictionary word_count file created order replies
          fopen_ok).thread_data.map (fun data => data.result))).length <
        INPUT_CHARACTER_LIMIT) :
    (handle_connection received dictionary word_count file created order replies
        fopen_ok).corrected_sentence =
      some (join_words
        ((handle_connection received dictionary word_count file created order replies
          fopen_ok).thread_data.map (fun data => data.result))) ∧
    (handle_connection received dictionary word_count file created order replies
        fopen_ok).thread_data.length = (input_words received).length ∧
    (∀ i, i < (input_words received).length →
      ∃ (data : WordThreadData) (d f : List CString) (rec : CString),
        (handle_connection received dictionary word_count file created order replies
          fopen_ok).thread_data[i]? = some data ∧
        data.index = i ∧
        data = (process_word
          (new_thread_data ((input_words received).getD i []) i word_count) d f rec
          fopen_ok).data) ∧
    (input_words received = [] →
      (handle_connection received dictionary word_count file created order replies
        fopen_ok).corrected_sentence = some []) := by
  obtain ⟨_, _, heq⟩ := handle_connection_accepted received dictionary word_count file
    created order replies fopen_ok h_accepted
  rw [heq] at h_fits ⊢
  simp only [] at h_fits ⊢
  have hfilter : order.filter created = order :=
    List.filter_eq_self.2
      (fun j hj => h_created j (List.mem_range.1 (h_order.mem_iff.1 hj)))
  rw [hfilter] at h_fits ⊢
  have hlen : (run_threads replies fopen_ok order
      (threads_start received dictionary word_count file)).thread_data.length =
      (input_words received).length := by
    rw [run_threads_length]
    simp [threads_start, init_thread_data_length]
  have hindex := run_threads_index replies fopen_ok order
    (threads_start received dictionary word_count file)
    (by
      intro j data hj
      rw [threads_start_index received dictionary word_count file j data hj]
      rfl)
  have hsentence := assemble_sentence_eq _ created hindex
    (by intro j hj; exact h_created j (by omega)) h_fits
  rw [hlen] at hsentence
  rw [count_threads_all created _ h_created]
  refine ⟨hsentence, hlen, ?_, ?_⟩
  · intro i hi
    have hres := (run_threads_resolved replies fopen_ok
      (fun j => new_thread_data ((input_words received).getD j []) j word_count) order
      (threads_start received dictionary word_count file)
      (h_order.nodup_iff.2 (List.nodup_range _))
      (fun j _ data hj => threads_start_index received dictionary word_count file j data
        hj)).1 i (h_order.mem_iff.2 (List.mem_range.2 hi))
    have hsome : (run_threads replies fopen_ok order
        (threads_start received dictionary word_count file)).thread_data[i]? =
        some ((run_threads replies fopen_ok order
          (threads_start received dictionary word_count file)).thread_data[i]) :=
      List.getElem?_eq_getElem (by omega)
    obtain ⟨d, f, rec, hdata⟩ := hres _ hsome
    exact ⟨_, d, f, rec, hsome, hindex i _ hsome, hdata⟩
  · intro hnil
    rw [hsentence]
    have hnil2 : (run_threads replies fopen_ok order
        (threads_start received dictionary word_count file)).thread_data = [] := by
      apply List.eq_nil_of_length_eq_zero
      rw [hlen, hnil]
      rfl
    rw [hnil2]
    rfl

/-! ## C11: the corrected sentence and its buffer -/

/-- C11 at a concrete input: the store holds `aaaaaaaaa`, `bbbbbbbbb`, `ccccccccc`, and
the sentence is these three words, 29 characters, which passes the validation. Every
word is in the store and resolves to itself without a prompt, all three threads are
created, and the three results, each followed by a space, are 30 characters: with the
NUL they need 31 bytes, one more than `corrected_sentence` has, so the `strcat` of
line 305 for the last word writes past the buffer and the program delivers no defined
corrected sentence, whether the threads run in the order 0, 1, 2 or 2, 1, 0. The
shorter sentence `zebra qwx`, with `qwx` resolved to `box`, gives `zebra box` whichever
of its two threads runs first. -/
theorem handle_connection_sentence_overflow :
    (trim_whitespace "aaaaaaaaa bbbbbbbbb ccccccccc".toList).length = 29 ∧
    (handle_connection "aaaaaaaaa bbbbbbbbb ccccccccc".toList nine_dictionary 3
      nine_dictionary all_created [0, 1, 2] no_replies true).error = none ∧
    (handle_connection "aaaaaaaaa bbbbbbbbb ccccccccc".toList nine_dictionary 3
      nine_dictionary all_created [0, 1, 2] no_replies true).thread_data.map
        (fun data => data.result) =
      ["aaaaaaaaa".toList, "bbbbbbbbb".toList, "ccccccccc".toList] ∧
    (handle_connection "aaaaaaaaa bbbbbbbbb ccccccccc".toList nine_dictionary 3
      nine_dictionary all_created [0, 1, 2] no_replies true).replies_read = 0 ∧
    (concat_spaces ["aaaaaaaaa".toList, "bbbbbbbbb".toList, "ccccccccc".toList]).length =
      INPUT_CHARACTER_LIMIT ∧
    (handle_connection "aaaaaaaaa bbbbbbbbb ccccccccc".toList nine_dictionary 3
      nine_dictionary all_created [0, 1, 2] no_replies true).corrected_sentence = none ∧
    (handle_connection "aaaaaaaaa bbbbbbbbb ccccccccc".toList nine_dictionary 3
      nine_dictionary all_created [2, 1, 0] no_replies true).corrected_sentence = none ∧
    (handle_connection "zebra qwx\n".toList zebra_dictionary 2 zebra_dictionary all_created
      [0, 1] no_replies true).corrected_sentence = some "zebra box".toList ∧
    (handle_connection "zebra qwx\n".toList zebra_dictionary 2 zebra_dictionary all_created
      [1, 0] no_replies true).corrected_sentence = some "zebra box".toList := by
  decide

/-! ## C14: two sessions of the same process -/

/-- C14 at a concrete input: `main` holds the store `apple`, `box` (word count 2). One
session sends `zx`, another `qq`, both answer `y`, both insertions are made, one
session after the other. Each session inserts into its own copy of the dictionary
array, so no array holds both words; the array and the word count of `main` are as
before (count 2, not 4); and the dictionary file holds the store of the session that
wrote last, without the word of the other session. -/
theorem two_sessions_store_not_shared :
    ((client_handler example_server "zx\n".toList all_created [0] yes_replies true).dictionary =
        ["apple".toList, "box".toList, "zx".toList] ∧
      (client_handler example_server "zx\n".toList all_created [0] yes_replies true).thread_data.map
        (fun data => data.word_count) = [3]) ∧
    ((client_handler
        (server_after example_server
          (client_handler example_server "zx\n".toList all_created [0] yes_replies true))
        "qq\n".toList all_created [0] yes_replies true).dictionary =
        ["apple".toList, "box".toList, "qq".toList] ∧
      (client_handler
        (server_after example_server
          (client_handler example_server "zx\n".toList all_created [0] yes_replies true))
        "qq\n".toList all_created [0] yes_replies true).thread_data.map
        (fun data => data.word_count) = [3]) ∧
    server_after
        (server_after example_server
          (client_handler example_server "zx\n".toList all_created [0] yes_replies true))
        (client_handler
          (server_after example_server
            (client_handler example_server "zx\n".toList all_created [0] yes_replies true))
          "qq\n".toList all_created [0] yes_replies true) =
      { dictionary := ["apple".toList, "box".toList], word_count := 2,
        file := ["apple".toList, "box".toList, "qq".toList] } ∧
    server_after
        (server_after example_server
          (client_handler example_server "qq\n".toList all_created [0] yes_replies true))
        (client_handler
          (server_after example_server
            (client_handler example_server "qq\n".toList all_created [0] yes_replies true))
          "zx\n".toList all_created [0] yes_replies true) =
      { dictionary := ["apple".toList, "box".toList], word_count := 2,
        file := ["apple".toList, "box".toList, "zx".toList] } := by
  decide

/-! ## C19: words lost from the store -/

/-- C19 at a concrete input: the store holds `apple` and `box` (word count 2), the sentence
is `aa ab` and both prompts are answered `y`. Both insertions are made (each thread
leaves with the count 3), and afterwards the dictionary array and the dictionary file
hold `aa`, `ab`, `apple`: the second thread, whose count is still 2, wrote `ab` over
`box` in slot 2. The word `box`, in the store before, is in no slot of the array and
on no line of the file, and the store the connection sees with its count of 2 is
`aa`, `ab`. -/
theorem handle_connection_loses_word :
    "box".toList ∈ store_words small_dictionary 2 ∧
    (handle_connection "aa ab\n".toList small_dictionary 2 small_dictionary all_created [0, 1]
      yes_replies true).thread_data.map (fun data => data.word_count) = [3, 3] ∧
    (handle_connection "aa ab\n".toList small_dictionary 2 small_dictionary all_created [0, 1]
      yes_replies true).dictionary = ["aa".toList, "ab".toList, "apple".toList] ∧
    (handle_connection "aa ab\n".toList small_dictionary 2 small_dictionary all_created [0, 1]
      yes_replies true).file = ["aa".toList, "ab".toList, "apple".toList] ∧
    "box".toList ∉ (handle_connection "aa ab\n".toList small_dictionary 2 small_dictionary
      all_created [0, 1] yes_replies true).dictionary ∧
    store_words
      (handle_connection "aa ab\n".toList small_dictionary 2 small_dictionary all_created [0, 1]
        yes_replies true).dictionary 2 = ["aa".toList, "ab".toList] := by
  decide

/-! ## The words of an accepted sentence -/

theorem tolower_toNat_upper (n : Nat) (h1 : 65 ≤ n) (h2 : n ≤ 90) :
    (Char.ofNat (n + 32)).toNat = n + 32 := by
  interval_cases n <;> rfl

theorem tolower_tolower (c : Char) : tolower (tolower c) = tolower c := by
  unfold tolower
  by_cases h : 65 ≤ c.toNat ∧ c.toNat ≤ 90
  · rw [if_pos h, tolower_toNat_upper c.toNat h.1 h.2]
    rw [if_neg (by omega)]
  · rw [if_neg h, if_neg h]

theorem to_lowercase_idem (w : CString) : to_lowercase (to_lowercase w) = to_lowercase w := by
  unfold to_lowercase
  rw [List.map_map]
  apply List.map_congr_left
  intro c _
  exact tolower_tolower c

theorem to_lowercase_eq_self_of_subset (w text : CString)
    (h : ∀ c ∈ w, c ∈ to_lowercase text) : to_lowercase w = w := by
  unfold to_lowercase at *
  conv_rhs => rw [← List.map_id w]
  apply List.map_congr_left
  intro c hc
  obtain ⟨c', _, rfl⟩ := List.mem_map.1 (h c hc)
  exact tolower_tolower c'

/-- The tokens of `strtok`: not empty, made of characters of the text, no longer than
the text. -/
theorem strtok_loop_tokens :
    ∀ (s token w : CString), w ∈ strtok_loop s token →
      w ≠ [] ∧ w.length ≤ token.length + s.length ∧ ∀ c ∈ w, c ∈ token ∨ c ∈ s := by
  intro s
  induction s with
  | nil =>
    intro token w hw
    unfold strtok_loop at hw
    split at hw
    · exact absurd hw (List.not_mem_nil w)
    · rename_i hne
      rw [List.mem_singleton] at hw
      subst hw
      exact ⟨hne, by simp, fun c hc => Or.inl hc⟩
  | cons x rest ih =>
    intro token w hw
    unfold strtok_loop at hw
    split at hw
    · split at hw
      · obtain ⟨h1, h2, h3⟩ := ih [] w hw
        refine ⟨h1, by simp only [List.length_nil, List.length_cons] at *; omega, ?_⟩
        intro c hc
        rcases h3 c hc with h | h
        · exact absurd h (List.not_mem_nil c)
        · exact Or.inr (List.mem_cons_of_mem _ h)
      · rename_i hne
        rcases List.mem_cons.1 hw with rfl | hw
        · exact ⟨hne, by simp only [List.length_cons]; omega, fun c hc => Or.inl hc⟩
        · obtain ⟨h1, h2, h3⟩ := ih [] w hw
          refine ⟨h1, by simp only [List.length_nil, List.length_cons] at *; omega, ?_⟩
          intro c hc
          rcases h3 c hc with h | h
          · exact absurd h (List.not_mem_nil c)
          · exact Or.inr (List.mem_cons_of_mem _ h)
    · obtain ⟨h1, h2, h3⟩ := ih (token ++ [x]) w hw
      refine ⟨h1, by simp only [List.length_append, List.length_cons, List.length_nil] at *; omega,
        ?_⟩
      intro c hc
      rcases h3 c hc with h | h
      · rcases List.mem_append.1 h with h | h
        · exact Or.inl h
        · rw [List.mem_singleton] at h
          subst h
          exact Or.inr (List.mem_cons_self _ _)
      · exact Or.inr (List.mem_cons_of_mem _ h)

/-- Every word of an accepted sentence is lowercase, not empty and at most 29 characters
long. -/
theorem input_words_valid (received : CString)
    (hlen : (trim_whitespace received).length ≤ 29) :
    ∀ w ∈ input_words received, valid_word w := by
  intro w hw
  obtain ⟨h1, h2, h3⟩ := strtok_loop_tokens _ _ w hw
  refine ⟨?_, h1, ?_⟩
  · apply to_lowercase_eq_self_of_subset w (trim_whitespace received)
    intro c hc
    rcases h3 c hc with h | h
    · exact absurd h (List.not_mem_nil c)
    · exact h
  · simp only [to_lowercase, List.length_map, List.length_nil, INPUT_CHARACTER_LIMIT] at *
    omega

theorem mem_init_thread_data (word_count : Nat) :
    ∀ (words : List CString) (i : Nat) (data : WordThreadData),
      data ∈ init_thread_data word_count i words →
      data.word ∈ words ∧ data.word_count = word_count := by
  intro words
  induction words with
  | nil => intro i data h; exact absurd h (List.not_mem_nil data)
  | cons w ws ih =>
    intro i data h
    unfold init_thread_data at h
    rcases List.mem_cons.1 h with rfl | h
    · exact ⟨List.mem_cons_self _ _, rfl⟩
    · exact ⟨List.mem_cons_of_mem _ (ih _ _ h).1, (ih _ _ h).2⟩

/-! ## The slots the sorting loops leave alone -/

theorem sort_swap_read_other (i j : Nat) (d : List CString) (k : Nat) (hki : k ≠ i)
    (hkj : k ≠ j) : array_read (sort_swap i d j) k = array_read d k := by
  rw [sort_swap_read]
  split
  · rw [Equiv.swap_apply_of_ne_of_ne hki hkj]
  · rfl

theorem sort_pass_read_ge (n i : Nat) (d : List CString) (k : Nat) (hk : n ≤ k) (hi : i < n) :
    array_read (sort_pass n d i) k = array_read d k := by
  have key := foldl_range'_invariant
    (fun _ (d' : List CString) => array_read d' k = array_read d k)
    (sort_swap i) (n - (i + 1)) (i + 1) d rfl
    (by
      intro j st hj hj2 hst
      rw [sort_swap_read_other i j st k (by omega) (by omega), hst])
  exact key

theorem sort_dictionary_read_ge (n : Nat) (d : List CString) (k : Nat) (hk : n ≤ k) :
    array_read (sort_dictionary d n) k = array_read d k := by
  have key := foldl_range_invariant
    (fun _ (d' : List CString) => array_read d' k = array_read d k)
    (sort_pass n) (n - 1) d rfl
    (by
      intro i st hi hst
      rw [sort_pass_read_ge n i st k hk (by omega), hst])
  exact key

theorem mem_store_words {w : CString} {dictionary : List CString} {word_count : Nat} :
    w ∈ store_words dictionary word_count ↔
      ∃ k, k < word_count ∧ array_read dictionary k = w := by
  unfold store_words
  simp only [List.mem_map, List.mem_range]

/-- An insertion keeps a property of the words in the slots in use. -/
theorem add_to_dictionary_slots (P : CString → Prop) (word : CString) (s : DictionaryState)
    (fopen_ok : Bool) (m : Nat) (hc : s.word_count ≤ m)
    (hP : ∀ k, k < m → P (array_read s.dictionary k)) (hw : P word) :
    ∃ m', m ≤ m' ∧ (add_to_dictionary word s fopen_ok).word_count ≤ m' ∧
      ∀ k, k < m' → P (array_read (add_to_dictionary word s fopen_ok).dictionary k) := by
  by_cases hfull : s.word_count ≥ DICTIONARY_CAPACITY
  · have : add_to_dictionary word s fopen_ok = s := by
      unfold add_to_dictionary
      rw [if_pos hfull]
    rw [this]
    exact ⟨m, le_refl _, hc, hP⟩
  · have hd : (add_to_dictionary word s fopen_ok).dictionary =
        sort_dictionary (array_write s.dictionary s.word_count word) (s.word_count + 1) := by
      unfold add_to_dictionary
      rw [if_neg hfull]
      cases fopen_ok <;> rfl
    have hcount : (add_to_dictionary word s fopen_ok).word_count = s.word_count + 1 := by
      unfold add_to_dictionary
      rw [if_neg hfull]
      cases fopen_ok <;> rfl
    rw [hd, hcount]
    refine ⟨max m (s.word_count + 1), le_max_left _ _, le_max_right _ _, ?_⟩
    intro k hk
    by_cases hk1 : k < s.word_count + 1
    · have hmem : array_read
          (sort_dictionary (array_write s.dictionary s.word_count word) (s.word_count + 1)) k ∈
          store_words
            (sort_dictionary (array_write s.dictionary s.word_count word) (s.word_count + 1))
            (s.word_count + 1) := mem_store_words.2 ⟨k, hk1, rfl⟩
      have hperm := (sort_dictionary_spec (s.word_count + 1)
        (array_write s.dictionary s.word_count word)).1
      rw [store_words_array_write] at hperm
      rcases List.mem_append.1 (hperm.mem_iff.1 hmem) with h | h
      · obtain ⟨j, hj, hjw⟩ := mem_store_words.1 h
        rw [← hjw]
        exact hP j (by omega)
      · rw [List.mem_singleton.1 h]
        exact hw
    · rw [sort_dictionary_read_ge _ _ _ (by omega), array_read_array_write,
        if_neg (by omega)]
      exact hP k (by
        rcases lt_max_iff.1 hk with h | h
        · exact h
        · omega)

/-! ## C15: the invariant of the stored words -/

theorem process_word_cases (data : WordThreadData) (dictionary file : List CString)
    (received : CString) (fopen_ok : Bool) :
    ((process_word data dictionary file received fopen_ok).dictionary = dictionary ∧
      (process_word data dictionary file received fopen_ok).file = file ∧
      (process_word data dictionary file received fopen_ok).data.word_count =
        data.word_count) ∨
    ((process_word data dictionary file received fopen_ok).dictionary =
        (add_to_dictionary (to_lowercase data.word)
          { dictionary := dictionary, word_count := data.word_count, file := file }
          fopen_ok).dictionary ∧
      (process_word data dictionary file received fopen_ok).file =
        (add_to_dictionary (to_lowercase data.word)
          { dictionary := dictionary, word_count := data.word_count, file := file }
          fopen_ok).file ∧
      (process_word data dictionary file received fopen_ok).data.word_count =
        (add_to_dictionary (to_lowercase data.word)
          { dictionary := dictionary, word_count := data.word_count, file := file }
          fopen_ok).word_count) := by
  unfold process_word
  simp only []
  split_ifs
  · exact Or.inl ⟨rfl, rfl, rfl⟩
  · exact Or.inl ⟨rfl, rfl, rfl⟩
  · exact Or.inl ⟨rfl, rfl, rfl⟩
  · exact Or.inr ⟨rfl, rfl, rfl⟩
  · exact Or.inl ⟨rfl, rfl, rfl⟩

/-- The invariant of the word threads: every thread word is valid, and every slot below
the largest word count of a thread holds a valid word. -/
theorem run_thread_valid (replies : Nat → CString) (fopen_ok : Bool) (word_count : Nat)
    (st : ThreadsState) (i : Nat)
    (h : ∃ m, word_count ≤ m ∧
      (∀ data ∈ st.thread_data, valid_word data.word ∧ data.word_count ≤ m) ∧
      ∀ k, k < m → valid_word (array_read st.dictionary k)) :
    ∃ m, word_count ≤ m ∧
      (∀ data ∈ (run_thread replies fopen_ok st i).thread_data,
        valid_word data.word ∧ data.word_count ≤ m) ∧
      ∀ k, k < m → valid_word (array_read (run_thread replies fopen_ok st i).dictionary k) := by
  obtain ⟨m, hm, hdata, hslots⟩ := h
  cases hd : st.thread_data[i]? with
  | none =>
    rw [run_thread_of_none _ _ _ _ hd]
    exact ⟨m, hm, hdata, hslots⟩
  | some data =>
    rw [run_thread_of_some _ _ _ _ _ hd]
    simp only []
    have hmem : data ∈ st.thread_data := List.getElem?_mem hd
    have hvalid := (hdata data hmem).1
    have hword : (process_word data st.dictionary st.file (replies st.replies_read)
        fopen_ok).data.word = data.word := by
      rw [process_word_word, hvalid.1]
    rcases process_word_cases data st.dictionary st.file (replies st.replies_read) fopen_ok
      with ⟨h1, _, h3⟩ | ⟨h1, _, h3⟩
    · refine ⟨m, hm, ?_, ?_⟩
      · intro x hx
        rcases List.mem_or_eq_of_mem_set hx with hx | hx
        · exact hdata x hx
        · rw [hx, hword, h3]
          exact hdata data hmem
      · rw [h1]
        exact hslots
    · obtain ⟨m', hmm, hcount, hslots'⟩ := add_to_dictionary_slots valid_word
        (to_lowercase data.word)
        { dictionary := st.dictionary, word_count := data.word_count, file := st.file }
        fopen_ok m (hdata data hmem).2 hslots (by rw [hvalid.1]; exact hvalid)
      refine ⟨m', le_trans hm hmm, ?_, ?_⟩
      · intro x hx
        rcases List.mem_or_eq_of_mem_set hx with hx | hx
        · exact ⟨(hdata x hx).1, le_trans (hdata x hx).2 hmm⟩
        · rw [hx, hword, h3]
          exact ⟨hvalid, hcount⟩
      · rw [h1]
        exact hslots'

theorem run_threads_valid (replies : Nat → CString) (fopen_ok : Bool) (word_count : Nat) :
    ∀ (order : List Nat) (st : ThreadsState),
      (∃ m, word_count ≤ m ∧
        (∀ data ∈ st.thread_data, valid_word data.word ∧ data.word_count ≤ m) ∧
        ∀ k, k < m → valid_word (array_read st.dictionary k)) →
      ∃ m, word_count ≤ m ∧
        (∀ data ∈ (run_threads replies fopen_ok order st).thread_data,
          valid_word data.word ∧ data.word_count ≤ m) ∧
        ∀ k, k < m →
          valid_word (array_read (run_threads replies fopen_ok order st).dictionary k) := by
  intro order
  induction order with
  | nil => intro st h; exact h
  | cons i rest ih =>
    intro st h
    exact ih _ (run_thread_valid replies fopen_ok word_count st i h)

/-- C15: if every word of the store is lowercase, not empty and at most 29 characters long
before `handle_connection` processes a sentence, then the same holds afterwards, for
every text received, every order of the word threads and all replies of the client:
for the store under the word count of the connection, and for the store under the
word count of every thread; and the word of every thread, the only word the thread
can insert, is lowercase, not empty and at most 29 characters long. -/
theorem handle_connection_store_words_valid (received : CString) (dictionary : List CString)
    (word_count : Nat) (file : List CString) (created : Nat → Bool) (order : List Nat)
    (replies : Nat → CString) (fopen_ok : Bool)
    (h : ∀ w ∈ store_words dictionary word_count, valid_word w) :
    (∀ w ∈ store_words
        (handle_connection received dictionary word_count file created order replies
          fopen_ok).dictionary word_count, valid_word w) ∧
    ∀ data ∈ (handle_connection received dictionary word_count file created order replies
        fopen_ok).thread_data,
      valid_word data.word ∧
      ∀ w ∈ store_words
          (handle_connection received dictionary word_count file created order replies
            fopen_ok).dictionary data.word_count, valid_word w := by
  by_cases herr :
      (handle_connection received dictionary word_count file created order replies fopen_ok).error
        = none
  · obtain ⟨hlen, _, heq⟩ := handle_connection_accepted received dictionary word_count file
      created order replies fopen_ok herr
    rw [heq]
    simp only []
    obtain ⟨m, hm, hdata, hslots⟩ := run_threads_valid replies fopen_ok word_count
      (order.filter created) (threads_start received dictionary word_count file)
      ⟨word_count, le_refl _,
        by
          intro data hdata
          obtain ⟨h1, h2⟩ := mem_init_thread_data word_count _ _ data hdata
          exact ⟨input_words_valid received hlen _ h1, le_of_eq h2⟩,
        by
          intro k hk
          exact h _ (mem_store_words.2 ⟨k, hk, rfl⟩)⟩
    refine ⟨?_, ?_⟩
    · intro w hw
      obtain ⟨k, hk, rfl⟩ := mem_store_words.1 hw
      exact hslots k (by omega)
    · intro data hd
      refine ⟨(hdata data hd).1, ?_⟩
      intro w hw
      obtain ⟨k, hk, rfl⟩ := mem_store_words.1 hw
      exact hslots k (by have := (hdata data hd).2; omega)
  · obtain ⟨h1, h2, _⟩ := handle_connection_rejected received dictionary word_count file
      created order replies fopen_ok herr
    rw [h1, h2]
    exact ⟨h, fun data hd => absurd hd (List.not_mem_nil data)⟩

theorem handle_connection_store_words_valid_witness :
    (∀ w ∈ store_words small_dictionary 2, valid_word w) ∧
    (∀ w ∈ store_words
        (handle_connection "Aa ab\n".toList small_dictionary 2 small_dictionary all_created
          [0, 1] yes_replies true).dictionary 2, valid_word w) ∧
    ∀ data ∈ (handle_connection "Aa ab\n".toList small_dictionary 2 small_dictionary
        all_created [0, 1] yes_replies true).thread_data, valid_word data.word :=
  have h : ∀ w ∈ store_words small_dictionary 2, valid_word w := by decide
  ⟨h,
    (handle_connection_store_words_valid "Aa ab\n".toList small_dictionary 2
      small_dictionary all_created [0, 1] yes_replies true h).1,
    fun data hd =>
      ((handle_connection_store_words_valid "Aa ab\n".toList small_dictionary 2
        small_dictionary all_created [0, 1] yes_replies true h).2 data hd).1⟩

end TextAnalysis
